import Mathlib

/-!
# Verification of the suffix-array search core

Shallow embedding of the Rust repository's search core:

* `src/search.rs` — the byte comparator (`compare_bytes`), the naive and
  LCP-accelerated bisections, and the two module-level search functions.
* `src/suffix_array.rs` — the `SuffixArray` index structure, prefix-table
  construction (`build_prefix_table`), starting-span computation
  (`get_start_span`), and the public search entry points.
* `src/prefix_table.rs` — the sparse/dense prefix table, conversions and the
  serialization policy.

Byte strings are modelled as `List Nat` (one `Nat` per byte, values < 256 in
every instance considered).  The `while` loops of the bisection routines are
modelled with an explicit fuel parameter; the fuel supplied at each call site
(`right - left`) is provably sufficient because every iteration shrinks the
gap by at least one, so the fuel-indexed function equals the source loop.
Rust's `HashMap<String, Span>` is modelled extensionally as a function
`List Nat → Option Span` (insert = pointwise update), which captures exactly
the lookup semantics the code relies on.
-/

/-- `Span` is the half-open index range `(start, end)` into the suffix array;
the source's `pub type Span = (u32, u32)`. -/
abbrev Span := Nat × Nat

/-- Result of a byte comparison: the longest common prefix measured from the
start of the strings, and the ordering at the first difference
(`src/search.rs`, `struct Comparison`). -/
structure Comparison where
  lcp : Nat
  ordering : Ordering
deriving DecidableEq, Repr

/-- A bisection bound: an index into the suffix array together with the
cached comparison from the last time this bound was touched
(`src/search.rs`, `struct Bound`). -/
structure Bound where
  index : Nat
  comparison : Comparison
deriving DecidableEq, Repr

/-- Inner loop of `compare_bytes`: walk the query bytes from absolute
position `i` (the remaining query bytes are passed as the list `rest`,
with `qlen` the total query length).  Mirrors the `for (idx, byte) in
prefix_bytes[offset..].iter().enumerate()` loop of `src/search.rs:39-47`:
the reference byte at absolute index `idx + offset` is compared with the
query byte, returning at the first difference. -/
def cbAux (s : List Nat) (qlen : Nat) : Nat → List Nat → Comparison
  | _, [] => ⟨qlen, .eq⟩
  | i, b :: rest =>
    match compare (s.getD i 0) b with
    | .eq => cbAux s qlen (i + 1) rest
    | o => ⟨i, o⟩

/-- `compare_bytes` from `src/search.rs:38-52`: compare the reference-suffix
bytes against the query bytes starting at `offset`, reporting the ordering of
the first differing byte and its index as the LCP; if no byte differs within
the query's length, report `Equal` with LCP = query length.  Out-of-bounds
reference reads (a panic in Rust) are modelled by `List.getD _ 0`; every
theorem below supplies hypotheses under which all reads are in bounds. -/
def compare_bytes (sequence_bytes prefix_bytes : List Nat) (offset : Nat) : Comparison :=
  cbAux sequence_bytes prefix_bytes.length offset (prefix_bytes.drop offset)

/-- Fuel-indexed body of the `while left < right` loop of `naive_bisect_by`
(`src/search.rs:54-82`).  The source computes the midpoint in `u32`
(`let center: u32 = (left + right) / 2`, `src/search.rs:68`), so the
addition is reduced modulo `2^32` here (its release-build wrapping
semantics; the debug-build overflow panic is modelled by `nbGoChecked`
below).  While `right ≤ 2^31` the sum never reaches `2^32`, the midpoint is
exact, each iteration strictly shrinks `right - left`, and fuel
`right - left` is sufficient; the theorems about this loop carry that
bound.  Beyond it the wrapped midpoint can jump below `left` and the source
loop need not terminate, which no total function can track — the fuel-0
default is *not* faithful there. -/
def nbGo (sequence_bytes prefix_bytes : List Nat) (suffix_array : List Nat)
    (f : Ordering → Bool) : Nat → Nat → Nat → Nat
  | 0, left, _ => left
  | fuel + 1, left, right =>
    if left < right then
      let center := (left + right) % 4294967296 / 2
      let c := compare_bytes (sequence_bytes.drop (suffix_array.getD center 0)) prefix_bytes 0
      if f c.ordering then
        nbGo sequence_bytes prefix_bytes suffix_array f fuel (center + 1) right
      else
        nbGo sequence_bytes prefix_bytes suffix_array f fuel left center
    else left

/-- `naive_bisect_by` from `src/search.rs:54-82`: binary search over the span,
recomputing the comparison from offset 0 at every step. -/
def naive_bisect_by (sequence_bytes prefix_bytes : List Nat) (suffix_array : List Nat)
    (span : Span) (f : Ordering → Bool) : Nat :=
  nbGo sequence_bytes prefix_bytes suffix_array f (span.2 - span.1) span.1 span.2

/-- Fuel-indexed body of the `while left.index < right.index` loop of
`simple_accelerant_bisect_by` (`src/search.rs:84-110`). -/
def saGo (sequence_bytes prefix_bytes : List Nat) (suffix_array : List Nat)
    (f : Ordering → Bool) : Nat → Bound → Bound → Bound × Bound
  | 0, left, right => (left, right)
  | fuel + 1, left, right =>
    if left.index < right.index then
      let center := (left.index + right.index) / 2
      let min_lcp := min left.comparison.lcp right.comparison.lcp
      let c := compare_bytes (sequence_bytes.drop (suffix_array.getD center 0))
        prefix_bytes min_lcp
      if f c.ordering then
        saGo sequence_bytes prefix_bytes suffix_array f fuel ⟨center + 1, c⟩ right
      else
        saGo sequence_bytes prefix_bytes suffix_array f fuel left ⟨center, c⟩
    else (left, right)

/-- `simple_accelerant_bisect_by` from `src/search.rs:84-110`: bisection
carrying a cached comparison on each bound; each step's comparison starts at
`min(left.lcp, right.lcp)`.  Returns the final pair of bounds (the source
mutates them in place). -/
def simple_accelerant_bisect_by (sequence_bytes prefix_bytes : List Nat)
    (suffix_array : List Nat) (left right : Bound) (f : Ordering → Bool) : Bound × Bound :=
  saGo sequence_bytes prefix_bytes suffix_array f (right.index - left.index) left right

/-- `simple_accelerant_search` from `src/search.rs:112-168`. -/
def simple_accelerant_search (sequence_bytes prefix_bytes : List Nat)
    (suffix_array : List Nat) (span : Span) : Option Span :=
  let left_bound : Bound :=
    ⟨span.1, compare_bytes (sequence_bytes.drop (suffix_array.getD span.1 0)) prefix_bytes 0⟩
  if left_bound.comparison.ordering = .gt then none
  else
    let right_bound : Bound :=
      ⟨span.2, compare_bytes (sequence_bytes.drop (suffix_array.getD (span.2 - 1) 0))
        prefix_bytes 0⟩
    let right_bound_copy := right_bound
    let phaseA := simple_accelerant_bisect_by sequence_bytes prefix_bytes suffix_array
      left_bound right_bound (fun x => x == Ordering.lt)
    if phaseA.1.comparison.ordering ≠ .eq ∧ phaseA.2.comparison.ordering ≠ .eq then none
    else
      let left := phaseA.1.index
      let phaseB := simple_accelerant_bisect_by sequence_bytes prefix_bytes suffix_array
        phaseA.1 right_bound_copy (fun x => x != Ordering.gt)
      some (left, phaseB.1.index)

/-- `naive_search` from `src/search.rs:170-222`. -/
def naive_search (sequence_bytes prefix_bytes : List Nat)
    (suffix_array : List Nat) (span : Span) : Option Span :=
  if (compare_bytes (sequence_bytes.drop (suffix_array.getD span.1 0))
      prefix_bytes 0).ordering = .gt then none
  else if (compare_bytes (sequence_bytes.drop (suffix_array.getD (span.2 - 1) 0))
      prefix_bytes 0).ordering = .lt then none
  else
    let left := naive_bisect_by sequence_bytes prefix_bytes suffix_array span
      (fun x => x == Ordering.lt)
    if (compare_bytes (sequence_bytes.drop (suffix_array.getD left 0))
        prefix_bytes 0).ordering ≠ .eq then none
    else
      let right := naive_bisect_by sequence_bytes prefix_bytes suffix_array (left, span.2)
        (fun x => x != Ordering.gt)
      some (left, right)

/-! ## Structural characterization of the comparator -/

/-- Spec-side structural recasting of `compare_bytes _ _ 0`: walk both lists
from the head.  Out-of-range reference bytes read as `0`, matching the
`getD` convention of the embedding. -/
def cbS : List Nat → List Nat → Nat × Ordering
  | _, [] => (0, .eq)
  | u, b :: rest =>
    match compare (u.getD 0 0) b with
    | .eq => ((cbS u.tail rest).1 + 1, (cbS u.tail rest).2)
    | o => (0, o)

theorem getD_tail (l : List Nat) (i : Nat) : (l.tail).getD i 0 = l.getD (i + 1) 0 := by
  cases l <;> simp [List.getD]

theorem getD_drop (i : Nat) (l : List Nat) (j : Nat) :
    (l.drop i).getD j 0 = l.getD (i + j) 0 := by
  induction i generalizing l with
  | zero => simp
  | succ n ih =>
    cases l with
    | nil => simp [List.getD]
    | cons a as =>
      simp only [List.drop_succ_cons, ih as]
      have : n + 1 + j = (n + j) + 1 := by omega
      rw [this]
      simp [List.getD]

theorem cbAux_eq_cbS : ∀ (rest : List Nat) (i : Nat) (s : List Nat) (qlen : Nat),
    qlen = i + rest.length →
    cbAux s qlen i rest = ⟨i + (cbS (s.drop i) rest).1, (cbS (s.drop i) rest).2⟩ := by
  intro rest
  induction rest with
  | nil => intro i s qlen h; simp [cbAux, cbS, h]
  | cons b rs ih =>
    intro i s qlen h
    have hd : (s.drop i).getD 0 0 = s.getD i 0 := by
      rw [getD_drop]; simp
    have htl : (s.drop i).tail = s.drop (i + 1) := by
      rw [List.tail_drop]
    cases hc : compare (s.getD i 0) b with
    | eq =>
      have := ih (i + 1) s qlen (by simp at h; omega)
      simp only [cbAux, hc, this, cbS, hd, htl]
      congr 1
      omega
    | lt => simp only [cbAux, hc, cbS, hd]; congr 1
    | gt => simp only [cbAux, hc, cbS, hd]; congr 1

theorem compare_bytes_eq_cbS (s q : List Nat) :
    compare_bytes s q 0 = ⟨(cbS s q).1, (cbS s q).2⟩ := by
  simpa using cbAux_eq_cbS q 0 s q.length (by simp)

theorem compare_bytes_offset (s q : List Nat) (m : Nat) (hm : m ≤ q.length) :
    compare_bytes s q m =
      ⟨m + (cbS (s.drop m) (q.drop m)).1, (cbS (s.drop m) (q.drop m)).2⟩ := by
  have := cbAux_eq_cbS (q.drop m) m s q.length (by simp; omega)
  simpa [compare_bytes] using this


theorem getD_cons_zero (b : Nat) (rs : List Nat) : (b :: rs).getD 0 0 = b := rfl

theorem getD_cons_succ (b : Nat) (rs : List Nat) (j : Nat) :
    (b :: rs).getD (j + 1) 0 = rs.getD j 0 := rfl

theorem getD_nil (j : Nat) : ([] : List Nat).getD j 0 = 0 := by
  simp [List.getD]

theorem cbS_nil (u : List Nat) : cbS u [] = (0, .eq) := rfl

theorem cbS_cons_eq (u : List Nat) (b : Nat) (rs : List Nat)
    (h : compare (u.getD 0 0) b = .eq) :
    cbS u (b :: rs) = ((cbS u.tail rs).1 + 1, (cbS u.tail rs).2) := by
  simp only [cbS]
  rw [h]

theorem cbS_cons_lt (u : List Nat) (b : Nat) (rs : List Nat)
    (h : compare (u.getD 0 0) b = .lt) : cbS u (b :: rs) = (0, .lt) := by
  simp only [cbS]
  rw [h]

theorem cbS_cons_gt (u : List Nat) (b : Nat) (rs : List Nat)
    (h : compare (u.getD 0 0) b = .gt) : cbS u (b :: rs) = (0, .gt) := by
  simp only [cbS]
  rw [h]

theorem cbS_lcp_le (u q : List Nat) : (cbS u q).1 ≤ q.length := by
  induction q generalizing u with
  | nil => simp [cbS_nil]
  | cons b rs ih =>
    cases hc : compare (u.getD 0 0) b with
    | eq => rw [cbS_cons_eq u b rs hc]; exact Nat.succ_le_succ (ih u.tail)
    | lt => rw [cbS_cons_lt u b rs hc]; simp
    | gt => rw [cbS_cons_gt u b rs hc]; simp

theorem cbS_eq_lcp (u q : List Nat) (h : (cbS u q).2 = .eq) : (cbS u q).1 = q.length := by
  induction q generalizing u with
  | nil => simp [cbS_nil]
  | cons b rs ih =>
    cases hc : compare (u.getD 0 0) b with
    | eq =>
      rw [cbS_cons_eq u b rs hc] at h ⊢
      rw [ih u.tail h]
      simp
    | lt => rw [cbS_cons_lt u b rs hc] at h; exact absurd h (by decide)
    | gt => rw [cbS_cons_gt u b rs hc] at h; exact absurd h (by decide)

theorem cbS_agrees (u q : List Nat) : ∀ j, j < (cbS u q).1 → u.getD j 0 = q.getD j 0 := by
  induction q generalizing u with
  | nil => simp [cbS_nil]
  | cons b rs ih =>
    intro j hj
    cases hc : compare (u.getD 0 0) b with
    | eq =>
      cases j with
      | zero => rw [getD_cons_zero]; exact compare_eq_iff_eq.mp hc
      | succ j' =>
        rw [cbS_cons_eq u b rs hc] at hj
        have := ih u.tail j' (by omega)
        rw [getD_tail] at this
        rw [getD_cons_succ]
        exact this
    | lt => rw [cbS_cons_lt u b rs hc] at hj; omega
    | gt => rw [cbS_cons_gt u b rs hc] at hj; omega

theorem cbS_eq_iff (u q : List Nat) :
    (cbS u q).2 = .eq ↔ ∀ j, j < q.length → u.getD j 0 = q.getD j 0 := by
  induction q generalizing u with
  | nil => simp [cbS_nil]
  | cons b rs ih =>
    cases hc : compare (u.getD 0 0) b with
    | eq =>
      rw [cbS_cons_eq u b rs hc]
      simp only []
      rw [ih u.tail]
      constructor
      · intro h j hj
        cases j with
        | zero => rw [getD_cons_zero]; exact compare_eq_iff_eq.mp hc
        | succ j' =>
          have := h j' (by simp at hj; omega)
          rw [getD_tail] at this
          rw [getD_cons_succ]
          exact this
      · intro h j hj
        have := h (j + 1) (by simp; omega)
        rw [getD_cons_succ] at this
        rw [getD_tail]
        exact this
    | lt =>
      rw [cbS_cons_lt u b rs hc]
      constructor
      · intro h; exact absurd h (by decide)
      · intro h
        have h0 := h 0 (by simp)
        rw [getD_cons_zero] at h0
        rw [h0, compare_eq_iff_eq.mpr rfl] at hc
        exact absurd hc (by decide)
    | gt =>
      rw [cbS_cons_gt u b rs hc]
      constructor
      · intro h; exact absurd h (by decide)
      · intro h
        have h0 := h 0 (by simp)
        rw [getD_cons_zero] at h0
        rw [h0, compare_eq_iff_eq.mpr rfl] at hc
        exact absurd hc (by decide)

theorem cbS_neq_spec (u q : List Nat) (h : (cbS u q).2 ≠ .eq) :
    (cbS u q).1 < q.length ∧
      compare (u.getD (cbS u q).1 0) (q.getD (cbS u q).1 0) = (cbS u q).2 := by
  induction q generalizing u with
  | nil => rw [cbS_nil] at h; exact absurd rfl h
  | cons b rs ih =>
    cases hc : compare (u.getD 0 0) b with
    | eq =>
      rw [cbS_cons_eq u b rs hc] at h ⊢
      obtain ⟨h1, h2⟩ := ih u.tail h
      refine ⟨by simp; omega, ?_⟩
      rw [getD_tail] at h2
      rw [getD_cons_succ]
      exact h2
    | lt =>
      rw [cbS_cons_lt u b rs hc]
      exact ⟨by simp, by rw [getD_cons_zero]; exact hc⟩
    | gt =>
      rw [cbS_cons_gt u b rs hc]
      exact ⟨by simp, by rw [getD_cons_zero]; exact hc⟩

theorem cbS_first_diff : ∀ (i : Nat) (q u : List Nat),
    (∀ j, j < i → u.getD j 0 = q.getD j 0) → i < q.length → u.getD i 0 ≠ q.getD i 0 →
    cbS u q = (i, compare (u.getD i 0) (q.getD i 0)) := by
  intro i
  induction i with
  | zero =>
    intro q u _ hlen hne
    cases q with
    | nil => simp at hlen
    | cons b rs =>
      rw [getD_cons_zero] at hne ⊢
      cases hc : compare (u.getD 0 0) b with
      | eq => exact absurd (compare_eq_iff_eq.mp hc) hne
      | lt => rw [cbS_cons_lt u b rs hc]
      | gt => rw [cbS_cons_gt u b rs hc]

  | succ i' ih =>
    intro q u hag hlen hne
    cases q with
    | nil => simp at hlen
    | cons b rs =>
      have h0 := hag 0 (by omega)
      rw [getD_cons_zero] at h0
      have hc : compare (u.getD 0 0) b = .eq := compare_eq_iff_eq.mpr h0
      have hag' : ∀ j, j < i' → u.tail.getD j 0 = rs.getD j 0 := by
        intro j hj
        rw [getD_tail]
        have := hag (j + 1) (by omega)
        rw [getD_cons_succ] at this
        exact this
      have hne' : u.tail.getD i' 0 ≠ rs.getD i' 0 := by
        rw [getD_tail]
        rw [getD_cons_succ] at hne
        exact hne
      have hrec := ih rs u.tail hag' (by simp at hlen; omega) hne'
      rw [cbS_cons_eq u b rs hc, hrec]
      rw [getD_cons_succ, ← getD_tail]

theorem cbS_shift : ∀ (m : Nat) (u q : List Nat),
    (∀ j, j < m → u.getD j 0 = q.getD j 0) → m ≤ q.length →
    cbS u q = (m + (cbS (u.drop m) (q.drop m)).1, (cbS (u.drop m) (q.drop m)).2) := by
  intro m
  induction m with
  | zero => intro u q _ _; simp
  | succ m' ih =>
    intro u q hag hm
    cases q with
    | nil => simp at hm
    | cons b rs =>
      have h0 := hag 0 (by omega)
      rw [getD_cons_zero] at h0
      have hc : compare (u.getD 0 0) b = .eq := compare_eq_iff_eq.mpr h0
      have hag' : ∀ j, j < m' → u.tail.getD j 0 = rs.getD j 0 := by
        intro j hj
        rw [getD_tail]
        have := hag (j + 1) (by omega)
        rw [getD_cons_succ] at this
        exact this
      have hrec := ih u.tail rs hag' (by simp at hm; omega)
      rw [cbS_cons_eq u b rs hc, hrec]
      have hd1 : u.tail.drop m' = u.drop (m' + 1) := by
        cases u with
        | nil => simp
        | cons a as => simp
      have hd2 : rs.drop m' = (b :: rs).drop (m' + 1) := by simp
      rw [hd1, hd2]
      congr 1
      omega

/-! ## Lexicographic order on byte lists -/

/-- Three-way lexicographic comparison of byte lists (a shorter list that is
a prefix of a longer one compares as smaller).  This is the order in which a
valid suffix array lists the suffixes of the reference. -/
def lexCmp : List Nat → List Nat → Ordering
  | [], [] => .eq
  | [], _ :: _ => .lt
  | _ :: _, [] => .gt
  | a :: as, b :: bs =>
    match compare a b with
    | .eq => lexCmp as bs
    | o => o

theorem lexCmp_nil_left (w : List Nat) : lexCmp [] w ≠ .gt := by
  cases w <;> simp [lexCmp]

theorem lexCmp_cons_nil (a : Nat) (as : List Nat) : lexCmp (a :: as) [] = .gt := rfl

theorem lexCmp_cons_cons (a : Nat) (as : List Nat) (b : Nat) (bs : List Nat) :
    lexCmp (a :: as) (b :: bs) =
      match compare a b with
      | .eq => lexCmp as bs
      | o => o := rfl

theorem lexCmp_head_le (u v : List Nat) (h : lexCmp u v ≠ .gt) :
    u.getD 0 0 ≤ v.getD 0 0 := by
  cases u with
  | nil => rw [getD_nil]; omega
  | cons a as =>
    cases v with
    | nil => rw [lexCmp_cons_nil] at h; exact absurd rfl h
    | cons b bs =>
      rw [getD_cons_zero, getD_cons_zero]
      rcases Nat.lt_trichotomy a b with hlt | heq | hgt
      · omega
      · omega
      · rw [lexCmp_cons_cons, compare_gt_iff_gt.mpr hgt] at h
        exact absurd rfl h

theorem lexCmp_tail (u v : List Nat) (h : lexCmp u v ≠ .gt)
    (hh : u.getD 0 0 = v.getD 0 0) : lexCmp u.tail v.tail ≠ .gt := by
  cases u with
  | nil => exact lexCmp_nil_left v.tail
  | cons a as =>
    cases v with
    | nil => rw [lexCmp_cons_nil] at h; exact absurd rfl h
    | cons b bs =>
      rw [getD_cons_zero, getD_cons_zero] at hh
      rw [lexCmp_cons_cons, compare_eq_iff_eq.mpr hh] at h
      exact h

theorem lexCmp_antisymm (u : List Nat) : ∀ v, lexCmp u v ≠ .gt → lexCmp v u ≠ .gt → u = v := by
  induction u with
  | nil =>
    intro v h1 h2
    cases v with
    | nil => rfl
    | cons b bs => rw [lexCmp_cons_nil] at h2; exact absurd rfl h2
  | cons a as ih =>
    intro v h1 h2
    cases v with
    | nil => rw [lexCmp_cons_nil] at h1; exact absurd rfl h1
    | cons b bs =>
      rcases Nat.lt_trichotomy a b with hlt | heq | hgt
      · rw [lexCmp_cons_cons, compare_gt_iff_gt.mpr hlt] at h2
        exact absurd rfl h2
      · subst heq
        rw [lexCmp_cons_cons, compare_eq_iff_eq.mpr rfl] at h1 h2
        rw [ih bs h1 h2]
      · rw [lexCmp_cons_cons, compare_gt_iff_gt.mpr hgt] at h1
        exact absurd rfl h1

/-- `u` agrees with `q` on the first `m` byte positions (out-of-range
positions read as `0`). -/
def agrees (m : Nat) (u q : List Nat) : Prop := ∀ j, j < m → u.getD j 0 = q.getD j 0

theorem agrees_mono {m m' : Nat} {u q : List Nat} (h : agrees m u q) (hm : m' ≤ m) :
    agrees m' u q := fun j hj => h j (by omega)

theorem agrees_tail {m : Nat} {u q : List Nat} (h : agrees (m + 1) u q) :
    agrees m u.tail q.tail := by
  intro j hj
  rw [getD_tail, getD_tail]
  exact h (j + 1) (by omega)

/-- The sandwich property: if two lexicographically ordered extremes both
agree with `q` on the first `m` positions, so does anything between them. -/
theorem agrees_sandwich : ∀ (m : Nat) (u y v q : List Nat), lexCmp u y ≠ .gt →
    lexCmp y v ≠ .gt → agrees m u q → agrees m v q → agrees m y q := by
  intro m
  induction m with
  | zero => intro u y v q _ _ _ _ j hj; omega
  | succ m' ih =>
    intro u y v q huy hyv hu hv
    have hu0 := hu 0 (by omega)
    have hv0 := hv 0 (by omega)
    have h1 := lexCmp_head_le u y huy
    have h2 := lexCmp_head_le y v hyv
    have hy0 : y.getD 0 0 = q.getD 0 0 := by omega
    intro j hj
    cases j with
    | zero => exact hy0
    | succ j' =>
      have htail := ih u.tail y.tail v.tail q.tail
        (lexCmp_tail u y huy (by omega)) (lexCmp_tail y v hyv (by omega))
        (agrees_tail hu) (agrees_tail hv)
      have := htail j' (by omega)
      rw [getD_tail, getD_tail] at this
      exact this

/-- The prefix sandwich: a common prefix of two lexicographically ordered
extremes is a prefix of anything between them. -/
theorem prefix_sandwich : ∀ (p : List Nat) (u y v : List Nat), p <+: u → p <+: v →
    lexCmp u y ≠ .gt → lexCmp y v ≠ .gt → p <+: y := by
  intro p
  induction p with
  | nil => intro u y v _ _ _ _; exact List.nil_prefix
  | cons a p' ih =>
    intro u y v hu hv huy hyv
    obtain ⟨tu, rfl⟩ := hu
    obtain ⟨tv, rfl⟩ := hv
    cases y with
    | nil =>
      rw [List.cons_append, lexCmp_cons_nil] at huy
      exact absurd rfl huy
    | cons c y' =>
      rw [List.cons_append] at huy hyv
      have hle1 := lexCmp_head_le _ _ huy
      have hle2 := lexCmp_head_le _ _ hyv
      rw [getD_cons_zero, getD_cons_zero] at hle1 hle2
      have hca : c = a := by omega
      subst hca
      rw [lexCmp_cons_cons, compare_eq_iff_eq.mpr rfl] at huy hyv
      have := ih (p' ++ tu) y' (p' ++ tv) ⟨tu, rfl⟩ ⟨tv, rfl⟩ huy hyv
      exact (List.prefix_cons_inj c).mpr this

/-- Numeric rank of an `Ordering`, used to state monotonicity
(`lt < eq < gt`). -/
def ordVal : Ordering → Nat
  | .lt => 0
  | .eq => 1
  | .gt => 2

theorem cbS_mono : ∀ (q u v : List Nat), lexCmp u v ≠ .gt →
    ordVal (cbS u q).2 ≤ ordVal (cbS v q).2 := by
  intro q
  induction q with
  | nil => intro u v _; rw [cbS_nil, cbS_nil]
  | cons b rs ih =>
    intro u v huv
    have hle := lexCmp_head_le u v huv
    cases hcu : compare (u.getD 0 0) b with
    | lt =>
      rw [cbS_cons_lt u b rs hcu]
      simp [ordVal]
    | eq =>
      have hub : u.getD 0 0 = b := compare_eq_iff_eq.mp hcu
      rw [cbS_cons_eq u b rs hcu]
      cases hcv : compare (v.getD 0 0) b with
      | lt =>
        have : v.getD 0 0 < b := compare_lt_iff_lt.mp hcv
        omega
      | eq =>
        have hvb : v.getD 0 0 = b := compare_eq_iff_eq.mp hcv
        rw [cbS_cons_eq v b rs hcv]
        exact ih u.tail v.tail (lexCmp_tail u v huv (by omega))
      | gt =>
        rw [cbS_cons_gt v b rs hcv]
        cases (cbS u.tail rs).2 <;> simp [ordVal]
    | gt =>
      have hub : b < u.getD 0 0 := compare_gt_iff_gt.mp hcu
      have hvb : b < v.getD 0 0 := by omega
      rw [cbS_cons_gt u b rs hcu, cbS_cons_gt v b rs (compare_gt_iff_gt.mpr hvb)]

theorem cbS_prefix_iff : ∀ (q u : List Nat), (∀ b ∈ q, 0 < b) →
    ((cbS u q).2 = .eq ↔ q <+: u) := by
  intro q
  induction q with
  | nil =>
    intro u _
    rw [cbS_nil]
    simp
  | cons b rs ih =>
    intro u hpos
    cases u with
    | nil =>
      have hb : 0 < b := hpos b (by simp)
      have hc : compare (([] : List Nat).getD 0 0) b = .lt := by
        rw [getD_nil]
        exact compare_lt_iff_lt.mpr hb
      rw [cbS_cons_lt [] b rs hc]
      constructor
      · intro h; exact absurd h (by decide)
      · intro h
        have := h.length_le
        simp at this
    | cons a as =>
      cases hc : compare ((a :: as).getD 0 0) b with
      | eq =>
        have hab : a = b := by
          rw [getD_cons_zero] at hc
          exact compare_eq_iff_eq.mp hc
        rw [cbS_cons_eq (a :: as) b rs hc]
        have := ih as (fun x hx => hpos x (by simp [hx]))
        simp only [List.tail_cons]
        rw [this]
        subst hab
        constructor
        · intro h; exact (List.prefix_cons_inj a).mpr h
        · intro h; exact (List.cons_prefix_cons.mp h).2
      | lt =>
        rw [cbS_cons_lt (a :: as) b rs hc]
        rw [getD_cons_zero] at hc
        have : a ≠ b := by
          have := compare_lt_iff_lt.mp hc
          omega
        constructor
        · intro h; exact absurd h (by decide)
        · intro h; exact absurd (List.cons_prefix_cons.mp h).1.symm this
      | gt =>
        rw [cbS_cons_gt (a :: as) b rs hc]
        rw [getD_cons_zero] at hc
        have : a ≠ b := by
          have := compare_gt_iff_gt.mp hc
          omega
        constructor
        · intro h; exact absurd h (by decide)
        · intro h; exact absurd (List.cons_prefix_cons.mp h).1.symm this

/-! ## Claim C3: comparator functional correctness -/

/-- C3.  For every reference-suffix byte slice, query byte slice, and offset
with `offset ≤ len(query)` and the reference slice at least `len(query)` bytes
long, `compare_bytes` stops at the first differing byte at or after the
offset, returning that byte's ordering (reference byte vs query byte) with
its index from the start of the strings as the LCP; if no byte differs
through position `len(query) - 1`, it returns `Equal` with
LCP = `len(query)`.  In particular
`compare_bytes("CTGGAAC", "CTGA", 0)` returns `Greater` with LCP 3. -/
theorem compare_bytes_first_diff_spec :
    (∀ (sequence_bytes prefix_bytes : List Nat) (offset : Nat),
      offset ≤ prefix_bytes.length → prefix_bytes.length ≤ sequence_bytes.length →
      (∀ i, offset ≤ i → i < prefix_bytes.length →
        sequence_bytes.getD i 0 ≠ prefix_bytes.getD i 0 →
        (∀ j, offset ≤ j → j < i → sequence_bytes.getD j 0 = prefix_bytes.getD j 0) →
        compare_bytes sequence_bytes prefix_bytes offset =
          ⟨i, compare (sequence_bytes.getD i 0) (prefix_bytes.getD i 0)⟩) ∧
      ((∀ j, offset ≤ j → j < prefix_bytes.length →
          sequence_bytes.getD j 0 = prefix_bytes.getD j 0) →
        compare_bytes sequence_bytes prefix_bytes offset =
          ⟨prefix_bytes.length, .eq⟩)) ∧
    compare_bytes [67, 84, 71, 71, 65, 65, 67] [67, 84, 71, 65] 0 =
      ⟨3, Ordering.gt⟩ := by
  constructor
  · intro s q off hoff _
    constructor
    · intro i hi hilen hne hag
      have hdiff := cbS_first_diff (i - off) (q.drop off) (s.drop off)
        (fun j hj => by
          rw [getD_drop, getD_drop]
          exact hag (off + j) (by omega) (by omega))
        (by simp; omega)
        (by
          rw [getD_drop, getD_drop]
          have : off + (i - off) = i := by omega
          rw [this]
          exact hne)
      rw [compare_bytes_offset s q off hoff, hdiff]
      have h1 : off + (i - off) = i := by omega
      rw [getD_drop, getD_drop, h1]
    · intro hag
      have heq : (cbS (s.drop off) (q.drop off)).2 = .eq := by
        rw [cbS_eq_iff]
        intro j hj
        rw [getD_drop, getD_drop]
        simp at hj
        exact hag (off + j) (by omega) (by omega)
      have hlcp := cbS_eq_lcp _ _ heq
      rw [compare_bytes_offset s q off hoff, heq, hlcp]
      simp
      omega
  · decide

/-- Witness for C3, instantiating it at the spec's concrete example
(`"CTGGAAC"` vs `"CTGA"`, offset 0, first difference at index 3). -/
theorem compare_bytes_first_diff_spec_witness :
    compare_bytes [67, 84, 71, 71, 65, 65, 67] [67, 84, 71, 65] 0 =
      ⟨3, Ordering.gt⟩ := by
  have h := (compare_bytes_first_diff_spec.1 [67, 84, 71, 71, 65, 65, 67]
    [67, 84, 71, 65] 0 (by decide) (by decide)).1 3 (by decide) (by decide)
    (by decide) (by decide)
  rw [h]
  decide

/-! ## Suffix-array context: validity predicates -/

/-- The suffix of the reference starting at the position stored in entry `i`
of the suffix array (out-of-range reads give the empty suffix / position 0,
matching the `getD` convention; all theorems bound the indices). -/
def sfx (seq sa : List Nat) (i : Nat) : List Nat := seq.drop (sa.getD i 0)

/-- Full (offset 0) comparison of the suffix at suffix-array entry `i`
against the query. -/
def fullComp (seq q sa : List Nat) (i : Nat) : Comparison :=
  compare_bytes (sfx seq sa i) q 0

/-- Ordering part of `fullComp`. -/
def fullOrd (seq q sa : List Nat) (i : Nat) : Ordering := (fullComp seq q sa i).ordering

/-- The suffix array lists suffixes in non-decreasing lexicographic order. -/
def SortedSA (seq sa : List Nat) : Prop :=
  ∀ j, j < sa.length → ∀ i, i ≤ j → lexCmp (sfx seq sa i) (sfx seq sa j) ≠ .gt

/-- A DNA-alphabet byte: `A`, `C`, `G` or `T` in ASCII. -/
def ACGT (b : Nat) : Prop := b = 65 ∨ b = 67 ∨ b = 71 ∨ b = 84

/-- A sentinel-terminated sequence: non-empty, ends with the sentinel byte
`'$'` (36), and every byte before the sentinel is a DNA-alphabet byte (so in
particular the sentinel occurs exactly once, at the end, and is smaller than
every other byte). -/
def ValidSeq (seq : List Nat) : Prop :=
  seq ≠ [] ∧ seq.getLast? = some 36 ∧ ∀ b ∈ seq.dropLast, ACGT b

/-- A sanitized query: every byte is a DNA-alphabet byte (spec §6: queries
are pre-sanitized to {A,C,G,T}). -/
def ValidQuery (q : List Nat) : Prop := ∀ b ∈ q, ACGT b

/-- A valid suffix array over `seq`: one entry per position of `seq`, every
entry in range, listed in suffix-sorted order. -/
def ValidSA (seq sa : List Nat) : Prop :=
  sa.length = seq.length ∧ (∀ x ∈ sa, x < seq.length) ∧ SortedSA seq sa

/-- A valid non-empty span over the suffix array. -/
def ValidSpan (sa : List Nat) (span : Span) : Prop :=
  span.1 < span.2 ∧ span.2 ≤ sa.length

theorem fullComp_eq_cbS (seq q sa : List Nat) (i : Nat) :
    fullComp seq q sa i = ⟨(cbS (sfx seq sa i) q).1, (cbS (sfx seq sa i) q).2⟩ :=
  compare_bytes_eq_cbS _ _

theorem fullOrd_mono (seq q sa : List Nat) (hs : SortedSA seq sa) {i j : Nat}
    (hij : i ≤ j) (hj : j < sa.length) :
    ordVal (fullOrd seq q sa i) ≤ ordVal (fullOrd seq q sa j) := by
  have hlex := hs j hj i hij
  have := cbS_mono q (sfx seq sa i) (sfx seq sa j) hlex
  simpa [fullOrd, fullComp_eq_cbS] using this

theorem fullComp_lcp_agrees (seq q sa : List Nat) (i : Nat) :
    agrees (fullComp seq q sa i).lcp (sfx seq sa i) q := by
  rw [fullComp_eq_cbS]
  exact fun j hj => cbS_agrees _ _ j hj

theorem fullComp_lcp_le (seq q sa : List Nat) (i : Nat) :
    (fullComp seq q sa i).lcp ≤ q.length := by
  rw [fullComp_eq_cbS]
  exact cbS_lcp_le _ _

theorem fullOrd_eq_iff_isPrefix (seq q sa : List Nat) (i : Nat)
    (hq : ∀ b ∈ q, 0 < b) :
    fullOrd seq q sa i = .eq ↔ q <+: sfx seq sa i := by
  rw [fullOrd, fullComp_eq_cbS]
  exact cbS_prefix_iff q (sfx seq sa i) hq

theorem ValidQuery.pos {q : List Nat} (hq : ValidQuery q) : ∀ b ∈ q, 0 < b := by
  intro b hb
  rcases hq b hb with h | h | h | h <;> omega

/-- The key accelerant fact: if the comparison at entry `i` (at or left of
`c`) and the comparison at entry `j` (at or right of `c`) both have LCP at
least `m`, then the suffix at `c` agrees with the query on its first `m`
bytes, so comparing from offset `m` gives the same result as from offset 0. -/
theorem skip_offset_ok (seq q sa : List Nat) (hs : SortedSA seq sa)
    {i c j m : Nat} (hic : i ≤ c) (hcj : c ≤ j) (hj : j < sa.length)
    (hmi : m ≤ (fullComp seq q sa i).lcp) (hmj : m ≤ (fullComp seq q sa j).lcp) :
    compare_bytes (sfx seq sa c) q m = fullComp seq q sa c := by
  have hmq : m ≤ q.length := le_trans hmi (fullComp_lcp_le seq q sa i)
  have hagi : agrees m (sfx seq sa i) q := agrees_mono (fullComp_lcp_agrees seq q sa i) hmi
  have hagj : agrees m (sfx seq sa j) q := agrees_mono (fullComp_lcp_agrees seq q sa j) hmj
  have hlex1 : lexCmp (sfx seq sa i) (sfx seq sa c) ≠ .gt :=
    hs c (by omega) i hic
  have hlex2 : lexCmp (sfx seq sa c) (sfx seq sa j) ≠ .gt :=
    hs j hj c hcj
  have hagc : agrees m (sfx seq sa c) q :=
    agrees_sandwich m (sfx seq sa i) (sfx seq sa c) (sfx seq sa j) q hlex1 hlex2 hagi hagj
  rw [compare_bytes_offset _ _ _ hmq, fullComp_eq_cbS]
  have := cbS_shift m (sfx seq sa c) q hagc hmq
  rw [this]

/-! ## The boundary of a monotone predicate -/

/-- Linear scan computing the least index at or after `l` where `g` turns
false (spec-side device used to characterize the bisections). -/
def bgo (g : Nat → Bool) : Nat → Nat → Nat
  | 0, l => l
  | fuel + 1, l => if g l then bgo g fuel (l + 1) else l

/-- `boundary g l r` is the least index in `[l, r]` at which `g` is false,
or `r` if `g` holds throughout `[l, r)`. -/
def boundary (g : Nat → Bool) (l r : Nat) : Nat := bgo g (r - l) l

theorem bgo_ge (g : Nat → Bool) : ∀ fuel l, l ≤ bgo g fuel l := by
  intro fuel
  induction fuel with
  | zero => intro l; simp [bgo]
  | succ n ih =>
    intro l
    simp only [bgo]
    split
    · exact le_trans (by omega) (ih (l + 1))
    · omega

theorem bgo_le (g : Nat → Bool) : ∀ fuel l, bgo g fuel l ≤ l + fuel := by
  intro fuel
  induction fuel with
  | zero => intro l; simp [bgo]
  | succ n ih =>
    intro l
    simp only [bgo]
    split
    · have := ih (l + 1); omega
    · omega

theorem bgo_true (g : Nat → Bool) : ∀ fuel l i, l ≤ i → i < bgo g fuel l → g i = true := by
  intro fuel
  induction fuel with
  | zero => intro l i h1 h2; simp [bgo] at h2; omega
  | succ n ih =>
    intro l i h1 h2
    simp only [bgo] at h2
    by_cases hg : g l
    · rw [if_pos hg] at h2
      rcases Nat.eq_or_lt_of_le h1 with rfl | hlt
      · exact hg
      · exact ih (l + 1) i (by omega) h2
    · rw [if_neg hg] at h2; omega

theorem bgo_false (g : Nat → Bool) : ∀ fuel l, bgo g fuel l < l + fuel →
    g (bgo g fuel l) = false := by
  intro fuel
  induction fuel with
  | zero =>
    intro l h
    have hz : bgo g 0 l = l := rfl
    omega
  | succ n ih =>
    intro l h
    simp only [bgo] at h ⊢
    by_cases hg : g l
    · rw [if_pos hg] at h ⊢
      exact ih (l + 1) (by omega)
    · rw [if_neg hg] at h ⊢
      simpa using hg

theorem bgo_char (g : Nat → Bool) : ∀ fuel l b, l ≤ b → b ≤ l + fuel →
    (∀ i, l ≤ i → i < b → g i = true) → (b < l + fuel → g b = false) →
    bgo g fuel l = b := by
  intro fuel
  induction fuel with
  | zero =>
    intro l b h1 h2 _ _
    have hz : bgo g 0 l = l := rfl
    omega
  | succ n ih =>
    intro l b h1 h2 htrue hfalse
    simp only [bgo]
    rcases Nat.eq_or_lt_of_le h1 with rfl | hlt
    · rw [if_neg (by rw [hfalse (by omega)]; simp)]
    · rw [if_pos (htrue l (by omega) hlt)]
      exact ih (l + 1) b (by omega) (by omega)
        (fun i hi1 hi2 => htrue i (by omega) hi2) (fun hb => hfalse (by omega))

theorem boundary_ge (g : Nat → Bool) (l r : Nat) : l ≤ boundary g l r :=
  bgo_ge g (r - l) l

theorem boundary_le (g : Nat → Bool) (l r : Nat) (h : l ≤ r) : boundary g l r ≤ r := by
  have := bgo_le g (r - l) l
  rw [boundary]
  omega

theorem boundary_true (g : Nat → Bool) (l r : Nat) :
    ∀ i, l ≤ i → i < boundary g l r → g i = true :=
  fun i h1 h2 => bgo_true g (r - l) l i h1 h2

theorem boundary_false (g : Nat → Bool) (l r : Nat) (hlr : l ≤ r)
    (h : boundary g l r < r) : g (boundary g l r) = false := by
  apply bgo_false g (r - l) l
  rw [boundary] at h
  omega

theorem boundary_char (g : Nat → Bool) (l r b : Nat) (hlr : l ≤ r) (h1 : l ≤ b) (h2 : b ≤ r)
    (htrue : ∀ i, l ≤ i → i < b → g i = true) (hfalse : b < r → g b = false) :
    boundary g l r = b :=
  bgo_char g (r - l) l b h1 (by omega) htrue (fun hb => hfalse (by omega))

/-! ## The bisections compute boundaries -/

theorem nbGo_eq_boundary (seq q sa : List Nat) (f : Ordering → Bool) (g : Nat → Bool)
    (hg : ∀ i, g i = f (fullOrd seq q sa i)) :
    ∀ (fuel l r : Nat), l ≤ r → r ≤ 2147483648 → r - l ≤ fuel →
    (∀ i j, i ≤ j → j < r → g j = true → g i = true) →
    nbGo seq q sa f fuel l r = boundary g l r := by
  intro fuel
  induction fuel with
  | zero =>
    intro l r h1 _ h2 _
    have hlr : l = r := by omega
    subst hlr
    rw [boundary, Nat.sub_self]
    rfl
  | succ n ih =>
    intro l r h1 hlim h2 hds
    by_cases hlr : l < r
    · have hmod : (l + r) % 4294967296 = l + r := Nat.mod_eq_of_lt (by omega)
      have hc1 : l ≤ (l + r) / 2 := by omega
      have hc2 : (l + r) / 2 < r := by omega
      have hcomp : (compare_bytes (seq.drop (sa.getD ((l + r) / 2) 0)) q 0).ordering
          = fullOrd seq q sa ((l + r) / 2) := rfl
      simp only [nbGo, if_pos hlr, hmod]
      by_cases hfc : g ((l + r) / 2) = true
      · rw [if_pos (by rw [hcomp, ← hg]; exact hfc)]
        rw [ih ((l + r) / 2 + 1) r (by omega) hlim (by omega) hds]
        refine (boundary_char g l r (boundary g ((l + r) / 2 + 1) r) h1
          (by have := boundary_ge g ((l + r) / 2 + 1) r; omega)
          (boundary_le g ((l + r) / 2 + 1) r (by omega)) ?_ ?_).symm
        · intro i hi1 hi2
          by_cases hic : i ≤ (l + r) / 2
          · exact hds i ((l + r) / 2) hic hc2 hfc
          · exact boundary_true g ((l + r) / 2 + 1) r i (by omega) hi2
        · intro hb
          exact boundary_false g ((l + r) / 2 + 1) r (by omega) hb
      · rw [if_neg (by rw [hcomp, ← hg]; simpa using hfc)]
        rw [ih l ((l + r) / 2) (by omega) (by omega) (by omega)
          (fun i j hij hj hgj => hds i j hij (by omega) hgj)]
        refine (boundary_char g l r (boundary g l ((l + r) / 2)) h1
          (boundary_ge g l ((l + r) / 2))
          (by have := boundary_le g l ((l + r) / 2) (by omega); omega) ?_ ?_).symm
        · intro i hi1 hi2
          exact boundary_true g l ((l + r) / 2) i hi1 hi2
        · intro _
          rcases Nat.eq_or_lt_of_le (boundary_le g l ((l + r) / 2) (by omega)) with heq | hlt
          · rw [heq]; simpa using hfc
          · exact boundary_false g l ((l + r) / 2) (by omega) hlt
    · have hlr' : l = r := by omega
      subst hlr'
      simp only [nbGo, if_neg hlr]
      rw [boundary, Nat.sub_self]
      rfl

theorem naive_bisect_by_eq_boundary (seq q sa : List Nat) (f : Ordering → Bool)
    (g : Nat → Bool) (hg : ∀ i, g i = f (fullOrd seq q sa i)) (l r : Nat) (h1 : l ≤ r)
    (hlim : r ≤ 2147483648)
    (hds : ∀ i j, i ≤ j → j < r → g j = true → g i = true) :
    naive_bisect_by seq q sa (l, r) f = boundary g l r :=
  nbGo_eq_boundary seq q sa f g hg (r - l) l r h1 hlim (by omega) hds

theorem saGo_spec (seq q sa : List Nat) (f : Ordering → Bool) (g : Nat → Bool)
    (hg : ∀ i, g i = f (fullOrd seq q sa i)) (hsor : SortedSA seq sa)
    (hds : ∀ i j, i ≤ j → j < sa.length → g j = true → g i = true) :
    ∀ (fuel li ri : Nat) (lc rc : Comparison) (a b : Nat),
    li ≤ ri → ri - li ≤ fuel → ri ≤ sa.length →
    a ≤ li → lc = fullComp seq q sa a →
    ri - 1 ≤ b → b < sa.length → rc = fullComp seq q sa b →
    saGo seq q sa f fuel ⟨li, lc⟩ ⟨ri, rc⟩ =
      (⟨boundary g li ri,
        if li < boundary g li ri then fullComp seq q sa (boundary g li ri - 1) else lc⟩,
       ⟨boundary g li ri,
        if boundary g li ri < ri then fullComp seq q sa (boundary g li ri) else rc⟩) := by
  intro fuel
  induction fuel with
  | zero =>
    intro li ri lc rc a b h1 h2 h3 ha1 ha2 hb1 hb2 hb3
    have hlr : li = ri := by omega
    subst hlr
    have hB : boundary g li li = li := by rw [boundary, Nat.sub_self]; rfl
    rw [show saGo seq q sa f 0 ⟨li, lc⟩ ⟨li, rc⟩ = (⟨li, lc⟩, ⟨li, rc⟩) from rfl, hB,
      if_neg (by omega), if_neg (by omega)]
  | succ n ih =>
    intro li ri lc rc a b h1 h2 h3 ha1 ha2 hb1 hb2 hb3
    by_cases hlr : li < ri
    · have hc1 : li ≤ (li + ri) / 2 := by omega
      have hc2 : (li + ri) / 2 < ri := by omega
      have hclen : (li + ri) / 2 < sa.length := by omega
      have hskip : compare_bytes (sfx seq sa ((li + ri) / 2)) q (min lc.lcp rc.lcp)
          = fullComp seq q sa ((li + ri) / 2) := by
        refine skip_offset_ok seq q sa hsor (i := a) (c := (li + ri) / 2) (j := b)
          (by omega) (by omega) hb2 ?_ ?_
        · rw [← ha2]; exact Nat.min_le_left _ _
        · rw [← hb3]; exact Nat.min_le_right _ _
      have hskip' : compare_bytes (List.drop (sa.getD ((li + ri) / 2) 0) seq) q
          (min lc.lcp rc.lcp) = fullComp seq q sa ((li + ri) / 2) := hskip
      simp only [saGo, if_pos hlr]
      rw [hskip']
      by_cases hfc : g ((li + ri) / 2) = true
      · rw [if_pos (by
          rw [show (fullComp seq q sa ((li + ri) / 2)).ordering
            = fullOrd seq q sa ((li + ri) / 2) from rfl, ← hg]
          exact hfc)]
        rw [ih ((li + ri) / 2 + 1) ri (fullComp seq q sa ((li + ri) / 2)) rc
          ((li + ri) / 2) b (by omega) (by omega) h3 (by omega) rfl hb1 hb2 hb3]
        have hBB : boundary g ((li + ri) / 2 + 1) ri = boundary g li ri := by
          refine (boundary_char g li ri (boundary g ((li + ri) / 2 + 1) ri) h1
            (by have := boundary_ge g ((li + ri) / 2 + 1) ri; omega)
            (boundary_le g ((li + ri) / 2 + 1) ri (by omega)) ?_ ?_).symm
          · intro i hi1 hi2
            by_cases hic : i ≤ (li + ri) / 2
            · exact hds i ((li + ri) / 2) hic hclen hfc
            · exact boundary_true g ((li + ri) / 2 + 1) ri i (by omega) hi2
          · intro hb'
            exact boundary_false g ((li + ri) / 2 + 1) ri (by omega) hb'
        rw [hBB]
        have hliB : li < boundary g li ri := by
          have := boundary_ge g ((li + ri) / 2 + 1) ri
          omega
        rw [if_pos hliB]
        by_cases hcase : (li + ri) / 2 + 1 < boundary g li ri
        · rw [if_pos hcase]
        · rw [if_neg hcase]
          have hb2' : boundary g li ri = (li + ri) / 2 + 1 := by
            have := boundary_ge g ((li + ri) / 2 + 1) ri
            omega
          rw [hb2']
          simp
      · rw [if_neg (by
          rw [show (fullComp seq q sa ((li + ri) / 2)).ordering
            = fullOrd seq q sa ((li + ri) / 2) from rfl, ← hg]
          simpa using hfc)]
        rw [ih li ((li + ri) / 2) lc (fullComp seq q sa ((li + ri) / 2))
          a ((li + ri) / 2) (by omega) (by omega) (by omega) ha1 ha2 (by omega) hclen rfl]
        have hBB : boundary g li ((li + ri) / 2) = boundary g li ri := by
          refine (boundary_char g li ri (boundary g li ((li + ri) / 2)) h1
            (boundary_ge g li ((li + ri) / 2))
            (by have := boundary_le g li ((li + ri) / 2) (by omega); omega) ?_ ?_).symm
          · intro i hi1 hi2
            exact boundary_true g li ((li + ri) / 2) i hi1 hi2
          · intro _
            rcases Nat.eq_or_lt_of_le (boundary_le g li ((li + ri) / 2) (by omega))
              with heq | hlt
            · rw [heq]; simpa using hfc
            · exact boundary_false g li ((li + ri) / 2) (by omega) hlt
        rw [hBB]
        have hBri : boundary g li ri < ri := by
          have := boundary_le g li ((li + ri) / 2) (by omega)
          omega
        rw [if_pos hBri]
        by_cases hcase : boundary g li ri < (li + ri) / 2
        · rw [if_pos hcase]
        · rw [if_neg hcase]
          have hbeq : boundary g li ri = (li + ri) / 2 := by
            have := boundary_le g li ((li + ri) / 2) (by omega)
            omega
          rw [hbeq]
    · have hlr' : li = ri := by omega
      subst hlr'
      have hB : boundary g li li = li := by rw [boundary, Nat.sub_self]; rfl
      simp only [saGo, if_neg hlr]
      rw [hB, if_neg (by omega), if_neg (by omega)]

/-! ## Search-level specification -/

/-- The left-bisection predicate: continue rightward while the suffix
compares `Less` than the query. -/
def gLt (seq q sa : List Nat) (i : Nat) : Bool := fullOrd seq q sa i == Ordering.lt

/-- The right-bisection predicate: continue rightward while the suffix does
not compare `Greater` than the query. -/
def gNGt (seq q sa : List Nat) (i : Nat) : Bool := fullOrd seq q sa i != Ordering.gt

theorem gLt_iff (seq q sa : List Nat) (i : Nat) :
    gLt seq q sa i = true ↔ fullOrd seq q sa i = .lt := by
  cases h : fullOrd seq q sa i <;> simp [gLt, h] <;> decide

theorem gNGt_iff (seq q sa : List Nat) (i : Nat) :
    gNGt seq q sa i = true ↔ fullOrd seq q sa i ≠ .gt := by
  cases h : fullOrd seq q sa i <;> simp [gNGt, h] <;> decide

theorem gLt_downset (seq q sa : List Nat) (hsor : SortedSA seq sa) :
    ∀ i j, i ≤ j → j < sa.length → gLt seq q sa j = true → gLt seq q sa i = true := by
  intro i j hij hj hgj
  rw [gLt_iff] at hgj ⊢
  have hmono := fullOrd_mono seq q sa hsor hij hj
  rw [hgj] at hmono
  cases h : fullOrd seq q sa i
  · rfl
  · rw [h] at hmono; simp [ordVal] at hmono
  · rw [h] at hmono; simp [ordVal] at hmono

theorem gNGt_downset (seq q sa : List Nat) (hsor : SortedSA seq sa) :
    ∀ i j, i ≤ j → j < sa.length → gNGt seq q sa j = true → gNGt seq q sa i = true := by
  intro i j hij hj hgj
  rw [gNGt_iff] at hgj ⊢
  have hmono := fullOrd_mono seq q sa hsor hij hj
  intro hcon
  rw [hcon] at hmono
  cases h : fullOrd seq q sa j
  · rw [h] at hmono; simp [ordVal] at hmono
  · rw [h] at hmono; simp [ordVal] at hmono
  · exact hgj h

/-- The common mathematical result of both searches over a span `(s0, s1)`:
`none` when the first suffix is already greater, when every suffix in the
span is less (left boundary = `s1`), or when the suffix at the left boundary
does not start with the query; otherwise the block
`[left boundary, right boundary)`. -/
def specSearch (seq q sa : List Nat) (span : Span) : Option Span :=
  if fullOrd seq q sa span.1 = .gt then none
  else if boundary (gLt seq q sa) span.1 span.2 = span.2 then none
  else if fullOrd seq q sa (boundary (gLt seq q sa) span.1 span.2) ≠ .eq then none
  else some (boundary (gLt seq q sa) span.1 span.2,
    boundary (gNGt seq q sa) (boundary (gLt seq q sa) span.1 span.2) span.2)

theorem last_lt_iff_boundary_full (seq q sa : List Nat) (hsor : SortedSA seq sa)
    (s0 s1 : Nat) (h01 : s0 < s1) (h1len : s1 ≤ sa.length) :
    fullOrd seq q sa (s1 - 1) = .lt ↔ boundary (gLt seq q sa) s0 s1 = s1 := by
  constructor
  · intro h
    refine boundary_char (gLt seq q sa) s0 s1 s1 (by omega) (by omega) le_rfl ?_ (by omega)
    intro i hi1 hi2
    exact gLt_downset seq q sa hsor i (s1 - 1) (by omega) (by omega)
      ((gLt_iff seq q sa (s1 - 1)).mpr h)
  · intro h
    have := boundary_true (gLt seq q sa) s0 s1 (s1 - 1) (by omega) (by omega)
    exact (gLt_iff seq q sa (s1 - 1)).mp this

theorem naive_search_eq_spec (seq q sa : List Nat) (span : Span)
    (hsor : SortedSA seq sa) (hspan : ValidSpan sa span)
    (hlim : span.2 ≤ 2147483648) :
    naive_search seq q sa span = specSearch seq q sa span := by
  obtain ⟨s0, s1⟩ := span
  obtain ⟨h01, h1len⟩ := hspan
  simp only at h01 h1len hlim
  have hdsLt : ∀ i j, i ≤ j → j < s1 → gLt seq q sa j = true → gLt seq q sa i = true :=
    fun i j hij hj hgj => gLt_downset seq q sa hsor i j hij (by omega) hgj
  have hB1 := naive_bisect_by_eq_boundary seq q sa (fun x => x == Ordering.lt)
    (gLt seq q sa) (fun i => rfl) s0 s1 (by omega) hlim hdsLt
  have hBge := boundary_ge (gLt seq q sa) s0 s1
  have hBle := boundary_le (gLt seq q sa) s0 s1 (by omega)
  have hdsNGt : ∀ i j, i ≤ j → j < s1 → gNGt seq q sa j = true → gNGt seq q sa i = true :=
    fun i j hij hj hgj => gNGt_downset seq q sa hsor i j hij (by omega) hgj
  have hB2 := naive_bisect_by_eq_boundary seq q sa (fun x => x != Ordering.gt)
    (gNGt seq q sa) (fun i => rfl) (boundary (gLt seq q sa) s0 s1) s1 (by omega) hlim
    hdsNGt
  have e0 : (compare_bytes (List.drop (sa.getD s0 0) seq) q 0).ordering
      = fullOrd seq q sa s0 := rfl
  have e1 : (compare_bytes (List.drop (sa.getD (s1 - 1) 0) seq) q 0).ordering
      = fullOrd seq q sa (s1 - 1) := rfl
  have eB : (compare_bytes
      (List.drop (sa.getD (boundary (gLt seq q sa) s0 s1) 0) seq) q 0).ordering
      = fullOrd seq q sa (boundary (gLt seq q sa) s0 s1) := rfl
  simp only [naive_search, specSearch]
  rw [hB1, hB2, e0, e1, eB]
  by_cases hg0 : fullOrd seq q sa s0 = .gt
  · rw [if_pos hg0, if_pos hg0]
  · rw [if_neg hg0, if_neg hg0]
    by_cases hg1 : fullOrd seq q sa (s1 - 1) = .lt
    · rw [if_pos hg1,
        if_pos ((last_lt_iff_boundary_full seq q sa hsor s0 s1 h01 h1len).mp hg1)]
    · rw [if_neg hg1, if_neg (fun hcon => hg1
        ((last_lt_iff_boundary_full seq q sa hsor s0 s1 h01 h1len).mpr hcon))]

theorem simple_accelerant_search_eq_spec (seq q sa : List Nat) (span : Span)
    (hsor : SortedSA seq sa) (hspan : ValidSpan sa span) :
    simple_accelerant_search seq q sa span = specSearch seq q sa span := by
  obtain ⟨s0, s1⟩ := span
  obtain ⟨h01, h1len⟩ := hspan
  simp only at h01 h1len
  have hdsLt := gLt_downset seq q sa hsor
  have hdsNGt := gNGt_downset seq q sa hsor
  have eC0 : compare_bytes (List.drop (sa.getD s0 0) seq) q 0 = fullComp seq q sa s0 := rfl
  have eC1 : compare_bytes (List.drop (sa.getD (s1 - 1) 0) seq) q 0
      = fullComp seq q sa (s1 - 1) := rfl
  have ePA := saGo_spec seq q sa (fun x => x == Ordering.lt) (gLt seq q sa) (fun i => rfl)
    hsor hdsLt (s1 - s0) s0 s1 (fullComp seq q sa s0) (fullComp seq q sa (s1 - 1))
    s0 (s1 - 1) (by omega) (by omega) h1len le_rfl rfl (by omega) (by omega) rfl
  have hBge := boundary_ge (gLt seq q sa) s0 s1
  have hBle := boundary_le (gLt seq q sa) s0 s1 (by omega)
  have hBtrue : ∀ i, s0 ≤ i → i < boundary (gLt seq q sa) s0 s1 →
      fullOrd seq q sa i = .lt :=
    fun i hi1 hi2 => (gLt_iff seq q sa i).mp (boundary_true (gLt seq q sa) s0 s1 i hi1 hi2)
  simp only [simple_accelerant_search, simple_accelerant_bisect_by, specSearch]
  rw [eC0, eC1, ePA]
  simp only
  by_cases hg0 : fullOrd seq q sa s0 = Ordering.gt
  · have hg0c : (fullComp seq q sa s0).ordering = Ordering.gt := hg0
    rw [if_pos hg0c, if_pos hg0]
  · have hg0c : ¬ (fullComp seq q sa s0).ordering = Ordering.gt := hg0
    rw [if_neg hg0c, if_neg hg0]
    by_cases hBfull : boundary (gLt seq q sa) s0 s1 = s1
    · have hlt : fullOrd seq q sa (s1 - 1) = .lt := by
        exact hBtrue (s1 - 1) (by omega) (by omega)
      rw [if_pos hBfull]
      rw [if_pos (show s0 < boundary (gLt seq q sa) s0 s1 by omega),
        if_neg (show ¬ boundary (gLt seq q sa) s0 s1 < s1 by omega)]
      rw [if_pos ?hcnd]
      case hcnd =>
        constructor
        · rw [hBfull]
          show fullOrd seq q sa (s1 - 1) ≠ .eq
          rw [hlt]
          decide
        · show fullOrd seq q sa (s1 - 1) ≠ .eq
          rw [hlt]
          decide
    · have hBlt : boundary (gLt seq q sa) s0 s1 < s1 := by omega
      rw [if_neg hBfull, if_pos hBlt]
      by_cases hBeq : fullOrd seq q sa (boundary (gLt seq q sa) s0 s1) ≠ .eq
      · rw [if_pos hBeq]
        rw [if_pos ?hcnd2]
        case hcnd2 =>
          refine ⟨?_, hBeq⟩
          by_cases hs0B : s0 < boundary (gLt seq q sa) s0 s1
          · rw [if_pos hs0B]
            show fullOrd seq q sa (boundary (gLt seq q sa) s0 s1 - 1) ≠ .eq
            rw [hBtrue (boundary (gLt seq q sa) s0 s1 - 1) (by omega) (by omega)]
            decide
          · rw [if_neg hs0B]
            have : s0 = boundary (gLt seq q sa) s0 s1 := by omega
            rw [this]
            exact hBeq
      · rw [if_neg hBeq]
        rw [if_neg (show ¬ ((if s0 < boundary (gLt seq q sa) s0 s1 then
            fullComp seq q sa (boundary (gLt seq q sa) s0 s1 - 1)
            else fullComp seq q sa s0).ordering ≠ Ordering.eq ∧
            (fullComp seq q sa (boundary (gLt seq q sa) s0 s1)).ordering ≠ Ordering.eq) by
          intro hcon
          exact hcon.2 (by simpa using hBeq))]
        by_cases hs0B : s0 < boundary (gLt seq q sa) s0 s1
        · rw [if_pos hs0B]
          have ePB := saGo_spec seq q sa (fun x => x != Ordering.gt) (gNGt seq q sa)
            (fun i => rfl) hsor hdsNGt (s1 - boundary (gLt seq q sa) s0 s1)
            (boundary (gLt seq q sa) s0 s1) s1
            (fullComp seq q sa (boundary (gLt seq q sa) s0 s1 - 1))
            (fullComp seq q sa (s1 - 1))
            (boundary (gLt seq q sa) s0 s1 - 1) (s1 - 1)
            (by omega) (by omega) h1len (by omega) rfl (by omega) (by omega) rfl
          rw [ePB]
        · rw [if_neg hs0B]
          have hs0eq : s0 = boundary (gLt seq q sa) s0 s1 := by omega
          have ePB := saGo_spec seq q sa (fun x => x != Ordering.gt) (gNGt seq q sa)
            (fun i => rfl) hsor hdsNGt (s1 - boundary (gLt seq q sa) s0 s1)
            (boundary (gLt seq q sa) s0 s1) s1
            (fullComp seq q sa s0)
            (fullComp seq q sa (s1 - 1))
            s0 (s1 - 1)
            (by omega) (by omega) h1len (by omega) (by rw [hs0eq]) (by omega) (by omega) rfl
          rw [ePB]

instance (b : Nat) : Decidable (ACGT b) := by
  unfold ACGT; infer_instance

instance (seq : List Nat) : Decidable (ValidSeq seq) := by
  unfold ValidSeq; infer_instance

instance (q : List Nat) : Decidable (ValidQuery q) := by
  unfold ValidQuery; infer_instance

instance (seq sa : List Nat) : Decidable (SortedSA seq sa) := by
  unfold SortedSA; infer_instance

instance (seq sa : List Nat) : Decidable (ValidSA seq sa) := by
  unfold ValidSA; infer_instance

instance (sa : List Nat) (span : Span) : Decidable (ValidSpan sa span) := by
  unfold ValidSpan; infer_instance

/-! ## Claim C2: correctness of returned spans -/

theorem specSearch_some_props (seq q sa : List Nat) (span : Span)
    (hsor : SortedSA seq sa) (hspan : ValidSpan sa span) (hq0 : ∀ b ∈ q, 0 < b) :
    ∀ st en, specSearch seq q sa span = some (st, en) →
      (∀ i, st ≤ i → i < en → q <+: sfx seq sa i) ∧
      (en < span.2 → ¬ q <+: sfx seq sa en) ∧
      (span.1 < st → ¬ q <+: sfx seq sa (st - 1)) := by
  obtain ⟨s0, s1⟩ := span
  obtain ⟨h01, h1len⟩ := hspan
  simp only at h01 h1len ⊢
  intro st en h
  rw [specSearch] at h
  simp only at h
  by_cases hg0 : fullOrd seq q sa s0 = .gt
  · rw [if_pos hg0] at h; exact absurd h (by simp)
  · rw [if_neg hg0] at h
    by_cases hBfull : boundary (gLt seq q sa) s0 s1 = s1
    · rw [if_pos hBfull] at h; exact absurd h (by simp)
    · rw [if_neg hBfull] at h
      by_cases hBne : fullOrd seq q sa (boundary (gLt seq q sa) s0 s1) ≠ .eq
      · rw [if_pos hBne] at h; exact absurd h (by simp)
      · rw [if_neg hBne] at h
        simp only [Option.some.injEq, Prod.mk.injEq] at h
        obtain ⟨hst, hen⟩ := h
        subst hst
        subst hen
        have hBeq : fullOrd seq q sa (boundary (gLt seq q sa) s0 s1) = .eq := by
          by_contra hcon
          exact hBne hcon
        have hBle := boundary_le (gLt seq q sa) s0 s1 (by omega)
        have hHge := boundary_ge (gNGt seq q sa) (boundary (gLt seq q sa) s0 s1) s1
        have hHle := boundary_le (gNGt seq q sa) (boundary (gLt seq q sa) s0 s1) s1
          (by omega)
        refine ⟨?_, ?_, ?_⟩
        · intro i hi1 hi2
          have hngt : fullOrd seq q sa i ≠ .gt :=
            (gNGt_iff seq q sa i).mp
              (boundary_true (gNGt seq q sa) (boundary (gLt seq q sa) s0 s1) s1 i hi1 hi2)
          have hmono := fullOrd_mono seq q sa hsor hi1 (show i < sa.length by omega)
          rw [hBeq] at hmono
          have hieq : fullOrd seq q sa i = .eq := by
            cases hfi : fullOrd seq q sa i
            · rw [hfi] at hmono; simp [ordVal] at hmono
            · rfl
            · exact absurd hfi hngt
          exact (fullOrd_eq_iff_isPrefix seq q sa i hq0).mp hieq
        · intro hen
          have hfalse := boundary_false (gNGt seq q sa)
            (boundary (gLt seq q sa) s0 s1) s1 (by omega) hen
          have hgt : fullOrd seq q sa (boundary (gNGt seq q sa)
              (boundary (gLt seq q sa) s0 s1) s1) = .gt := by
            by_contra hcon
            rw [(gNGt_iff seq q sa _).mpr hcon] at hfalse
            exact absurd hfalse (by simp)
          intro hcon
          have := (fullOrd_eq_iff_isPrefix seq q sa _ hq0).mpr hcon
          rw [this] at hgt
          exact absurd hgt (by decide)
        · intro hst
          have htrue := boundary_true (gLt seq q sa) s0 s1
            (boundary (gLt seq q sa) s0 s1 - 1) (by omega) (by omega)
          have hlt := (gLt_iff seq q sa _).mp htrue
          intro hcon
          have := (fullOrd_eq_iff_isPrefix seq q sa _ hq0).mpr hcon
          rw [this] at hlt
          exact absurd hlt (by decide)

/-- C2 fails as frozen: over `"AACCG$"` with query `"C"` and the valid
non-empty span `(0, 4)`, both searches return `Some (3, 4)`; the end index
`4` is smaller than the suffix-array length `6`, yet the suffix at entry `4`
(namely `"CG$"`) does begin with the query — the claim's end-side condition
`end < len(suffix_array)` is the wrong bound when the span does not cover
the whole suffix array. -/
theorem search_correct_counterexample :
    ValidSeq [65, 65, 67, 67, 71, 36] ∧ ValidQuery [67] ∧
    ValidSA [65, 65, 67, 67, 71, 36] [5, 0, 1, 2, 3, 4] ∧
    ValidSpan [5, 0, 1, 2, 3, 4] (0, 4) ∧
    naive_search [65, 65, 67, 67, 71, 36] [67] [5, 0, 1, 2, 3, 4] (0, 4) = some (3, 4) ∧
    simple_accelerant_search [65, 65, 67, 67, 71, 36] [67] [5, 0, 1, 2, 3, 4] (0, 4)
      = some (3, 4) ∧
    4 < ([5, 0, 1, 2, 3, 4] : List Nat).length ∧
    [67] <+: sfx [65, 65, 67, 67, 71, 36] [5, 0, 1, 2, 3, 4] 4 := by
  decide

/-- C2 (amended).  For every search (Naive or Accelerated) over a valid
suffix array of a sentinel-terminated sequence, with a sanitized query and a
valid non-empty span — the Naive case additionally within the domain where
its `u32` midpoint addition cannot overflow, i.e. the span's right edge at
most `2^31` — returning `Some (st, en)`: every suffix-array entry in
`[st, en)` points to a suffix beginning with the query; if `en` is smaller
than the span's right edge, the suffix at entry `en` does not begin with the
query; and if `st` is greater than the span's left edge, the suffix at entry
`st - 1` does not either. -/
theorem search_some_correct (seq q sa : List Nat) (span : Span)
    (_hseq : ValidSeq seq) (hq : ValidQuery q) (hsa : ValidSA seq sa)
    (hspan : ValidSpan sa span) :
    ∀ st en, ((span.2 ≤ 2147483648 ∧ naive_search seq q sa span = some (st, en)) ∨
        simple_accelerant_search seq q sa span = some (st, en)) →
      (∀ i, st ≤ i → i < en → q <+: sfx seq sa i) ∧
      (en < span.2 → ¬ q <+: sfx seq sa en) ∧
      (span.1 < st → ¬ q <+: sfx seq sa (st - 1)) := by
  intro st en h
  have hspec : specSearch seq q sa span = some (st, en) := by
    rcases h with ⟨hlim, h⟩ | h
    · rw [← naive_search_eq_spec seq q sa span hsa.2.2 hspan hlim]; exact h
    · rw [← simple_accelerant_search_eq_spec seq q sa span hsa.2.2 hspan]; exact h
  exact specSearch_some_props seq q sa span hsa.2.2 hspan hq.pos st en hspec

/-- Witness for the amended C2, instantiating it at `"AACCG$"`, query `"C"`,
full span, where the Naive search returns `Some (3, 5)`. -/
theorem search_some_correct_witness :
    (∀ i, 3 ≤ i → i < 5 → [67] <+: sfx [65, 65, 67, 67, 71, 36] [5, 0, 1, 2, 3, 4] i) ∧
    (5 < 6 → ¬ [67] <+: sfx [65, 65, 67, 67, 71, 36] [5, 0, 1, 2, 3, 4] 5) ∧
    (0 < 3 → ¬ [67] <+: sfx [65, 65, 67, 67, 71, 36] [5, 0, 1, 2, 3, 4] 2) :=
  search_some_correct [65, 65, 67, 67, 71, 36] [67] [5, 0, 1, 2, 3, 4] (0, 6)
    (by decide) (by decide) (by decide) (by decide) 3 5 (Or.inl ⟨by decide, by decide⟩)

/-! ## Claim C4: the Accelerated search's phase-A exit test -/

/-- The state of the Accelerated search's two bounds after phase A (the
left-edge bisection), as computed by `simple_accelerant_search`
(`src/search.rs:118-149`). -/
def accelPhaseA (seq q sa : List Nat) (span : Span) : Bound × Bound :=
  simple_accelerant_bisect_by seq q sa
    ⟨span.1, compare_bytes (seq.drop (sa.getD span.1 0)) q 0⟩
    ⟨span.2, compare_bytes (seq.drop (sa.getD (span.2 - 1) 0)) q 0⟩
    (fun x => x == Ordering.lt)

/-- The snapshot of the right bound taken before phase A
(`right_bound_copy`, `src/search.rs:131-141`): index `span.2`, comparison
computed at span position `span.2 - 1`. -/
def accelRightBound (seq q sa : List Nat) (span : Span) : Bound :=
  ⟨span.2, compare_bytes (seq.drop (sa.getD (span.2 - 1) 0)) q 0⟩

/-- C4 fails as frozen: the code's phase-A exit test reads the right bound
*mutated by phase A*, not the pre-phase-A snapshot.  Over `"AACCG$"` with
query `"C"` and span `(0, 6)`: phase A ends with the left bound's comparison
`Less` and the snapshot's comparison `Greater` — neither is `Equal`, so the
claim says the search returns `None` — yet the search proceeds (the
post-phase-A right bound's comparison is `Equal`) and returns
`Some (3, 5)`. -/
theorem accel_phaseA_test_counterexample :
    ValidSeq [65, 65, 67, 67, 71, 36] ∧ ValidQuery [67] ∧
    ValidSA [65, 65, 67, 67, 71, 36] [5, 0, 1, 2, 3, 4] ∧
    ValidSpan [5, 0, 1, 2, 3, 4] (0, 6) ∧
    fullOrd [65, 65, 67, 67, 71, 36] [67] [5, 0, 1, 2, 3, 4] 0 ≠ .gt ∧
    (accelPhaseA [65, 65, 67, 67, 71, 36] [67] [5, 0, 1, 2, 3, 4]
      (0, 6)).1.comparison.ordering ≠ .eq ∧
    (accelRightBound [65, 65, 67, 67, 71, 36] [67] [5, 0, 1, 2, 3, 4]
      (0, 6)).comparison.ordering ≠ .eq ∧
    simple_accelerant_search [65, 65, 67, 67, 71, 36] [67] [5, 0, 1, 2, 3, 4] (0, 6)
      = some (3, 5) := by
  decide

/-- C4 (amended).  In the Accelerated search, once phase A is reached (the
comparison at the span's left edge is not `Greater`), the search returns
`None` exactly when neither the final left bound's comparison nor the final
right bound's comparison *after phase A* is `Equal`; otherwise it proceeds
to phase B with the right bound restored to the pre-phase-A snapshot and
returns `Some((left_edge, right_edge))`. -/
theorem accel_phaseA_test (seq q sa : List Nat) (span : Span)
    (hg0 : fullOrd seq q sa span.1 ≠ .gt) :
    (simple_accelerant_search seq q sa span = none ↔
      ((accelPhaseA seq q sa span).1.comparison.ordering ≠ .eq ∧
       (accelPhaseA seq q sa span).2.comparison.ordering ≠ .eq)) ∧
    (¬ ((accelPhaseA seq q sa span).1.comparison.ordering ≠ .eq ∧
        (accelPhaseA seq q sa span).2.comparison.ordering ≠ .eq) →
      simple_accelerant_search seq q sa span =
        some ((accelPhaseA seq q sa span).1.index,
          (simple_accelerant_bisect_by seq q sa (accelPhaseA seq q sa span).1
            (accelRightBound seq q sa span) (fun x => x != Ordering.gt)).1.index)) := by
  have hg0c : ¬ (compare_bytes (List.drop (sa.getD span.1 0) seq) q 0).ordering
      = Ordering.gt := hg0
  have e : simple_accelerant_search seq q sa span =
      (if ((accelPhaseA seq q sa span).1.comparison.ordering ≠ .eq ∧
          (accelPhaseA seq q sa span).2.comparison.ordering ≠ .eq) then none
       else some ((accelPhaseA seq q sa span).1.index,
         (simple_accelerant_bisect_by seq q sa (accelPhaseA seq q sa span).1
           (accelRightBound seq q sa span) (fun x => x != Ordering.gt)).1.index)) := by
    simp only [simple_accelerant_search, accelPhaseA, accelRightBound]
    rw [if_neg hg0c]
  rw [e]
  by_cases hcond : ((accelPhaseA seq q sa span).1.comparison.ordering ≠ .eq ∧
      (accelPhaseA seq q sa span).2.comparison.ordering ≠ .eq)
  · rw [if_pos hcond]
    exact ⟨⟨fun _ => hcond, fun _ => rfl⟩, fun hcon => absurd hcond hcon⟩
  · rw [if_neg hcond]
    exact ⟨⟨fun hcon => absurd hcon (by simp), fun hcon => absurd hcon hcond⟩,
      fun _ => rfl⟩

/-- Witness for the amended C4 at `"AACCG$"`, query `"C"`, span `(0, 6)`. -/
theorem accel_phaseA_test_witness :
    (simple_accelerant_search [65, 65, 67, 67, 71, 36] [67] [5, 0, 1, 2, 3, 4] (0, 6)
        = none ↔
      ((accelPhaseA [65, 65, 67, 67, 71, 36] [67] [5, 0, 1, 2, 3, 4]
          (0, 6)).1.comparison.ordering ≠ .eq ∧
       (accelPhaseA [65, 65, 67, 67, 71, 36] [67] [5, 0, 1, 2, 3, 4]
          (0, 6)).2.comparison.ordering ≠ .eq)) ∧
    (¬ ((accelPhaseA [65, 65, 67, 67, 71, 36] [67] [5, 0, 1, 2, 3, 4]
          (0, 6)).1.comparison.ordering ≠ .eq ∧
        (accelPhaseA [65, 65, 67, 67, 71, 36] [67] [5, 0, 1, 2, 3, 4]
          (0, 6)).2.comparison.ordering ≠ .eq) →
      simple_accelerant_search [65, 65, 67, 67, 71, 36] [67] [5, 0, 1, 2, 3, 4] (0, 6) =
        some ((accelPhaseA [65, 65, 67, 67, 71, 36] [67] [5, 0, 1, 2, 3, 4] (0, 6)).1.index,
          (simple_accelerant_bisect_by [65, 65, 67, 67, 71, 36] [67] [5, 0, 1, 2, 3, 4]
            (accelPhaseA [65, 65, 67, 67, 71, 36] [67] [5, 0, 1, 2, 3, 4] (0, 6)).1
            (accelRightBound [65, 65, 67, 67, 71, 36] [67] [5, 0, 1, 2, 3, 4] (0, 6))
            (fun x => x != Ordering.gt)).1.index)) :=
  accel_phaseA_test [65, 65, 67, 67, 71, 36] [67] [5, 0, 1, 2, 3, 4] (0, 6) (by decide)

/-! ## Prefix table (`src/prefix_table.rs`) -/

/-- The prefix table, mirroring `enum PrefixTable`: `Sparse(u16,
HashMap<String, Span>)` or `Dense(Vec<Option<Span>>)`.  The hash map is
modelled extensionally as a function from byte-string keys to optional
spans; insertion is pointwise update, which captures exactly the lookup
semantics the code relies on. -/
inductive PrefixTable where
  | Sparse (k : Nat) (table : List Nat → Option Span)
  | Dense (table : List (Option Span))

/-- `nucleotide_to_int` (`src/prefix_table.rs:139-147`), on ASCII bytes;
a byte outside ACGT is an error (`none`). -/
def nucleotide_to_int (b : Nat) : Option Nat :=
  if b = 65 then some 0
  else if b = 67 then some 1
  else if b = 71 then some 2
  else if b = 84 then some 3
  else none

/-- The fallible collection of per-nucleotide digits
(`.map(nucleotide_to_value).collect::<Result<String>>()`). -/
def mapDigits : List Nat → Option (List Nat)
  | [] => some []
  | b :: rest =>
    match nucleotide_to_int b with
    | none => none
    | some d =>
      match mapDigits rest with
      | none => none
      | some ds => some (d :: ds)

/-- `prefix_to_index` (`src/prefix_table.rs:164-170`): map each nucleotide
to its base-4 digit (A=0, C=1, G=2, T=3, most significant first) and read
the digit string in radix 4.  `usize::from_str_radix` fails on the empty
string, hence the empty key is an error. -/
def prefix_to_index (p : List Nat) : Option Nat :=
  match mapDigits p with
  | none => none
  | some ds => if ds.isEmpty then none else some (ds.foldl (fun acc d => acc * 4 + d) 0)

/-- `PrefixTable::k` (`src/prefix_table.rs:23-28`).  For the Dense variant
the source computes `(table.len() as f32).log(4.0) as u16` — a
floating-point computation through the platform `libm` whose exact rounding
a shallow embedding cannot pin down.  It is therefore modelled as an
arbitrary function `dlog4` of the length, and every theorem quantifies over
`dlog4`. -/
def PrefixTable.k (dlog4 : Nat → Nat) : PrefixTable → Nat
  | .Sparse k _ => k
  | .Dense table => dlog4 table.length

/-- `PrefixTable::get` (`src/prefix_table.rs:30-41`).  In the Dense case the
source unwraps `prefix_to_index`, panicking on a key with a byte outside
ACGT (or an empty key); the panic is modelled as an absent entry, and every
claim that exercises a dense lookup restricts keys so that the unwrap
succeeds. -/
def PrefixTable.get (t : PrefixTable) (key : List Nat) : Option Span :=
  match t with
  | .Sparse _ table => table key
  | .Dense table =>
    match prefix_to_index key with
    | some index => table.getD index none
    | none => none

/-- `PrefixTable::new_sparse` (`src/prefix_table.rs:19-21`). -/
def PrefixTable.new_sparse (k : Nat) : PrefixTable := .Sparse k (fun _ => none)

/-- Pointwise-update model of `HashMap::insert`. -/
def tableInsert (tbl : List Nat → Option Span) (key : List Nat) (v : Span) :
    List Nat → Option Span :=
  fun x => if x = key then some v else tbl x

/-- All length-`k` tuples over the ACGT bytes, first position most
significant (the order in which `multi_cartesian_product` of `k` copies of
`"ACGT".chars()` yields them). -/
def tuples : Nat → List (List Nat)
  | 0 => [[]]
  | k + 1 =>
    ((tuples k).map (65 :: ·)) ++ ((tuples k).map (67 :: ·)) ++
      ((tuples k).map (71 :: ·)) ++ ((tuples k).map (84 :: ·))

/-- The enumeration `(0..k).map(|_| "ACGT".chars()).multi_cartesian_product()`
used by `to_dense` / `clone_dense` / `to_sparse`.  itertools'
`multi_cartesian_product` over zero factors yields no items, hence the
empty list at `k = 0`. -/
def allKmers (k : Nat) : List (List Nat) := if k = 0 then [] else tuples k

/-- `PrefixTable::clone_dense` (`src/prefix_table.rs:72-87`): a Dense table
is cloned; a Sparse table is materialized by looking every possible ACGT
`k`-mer up in enumeration order. -/
def PrefixTable.clone_dense (other : PrefixTable) : PrefixTable :=
  match other with
  | .Dense table => .Dense table
  | .Sparse k table => .Dense ((allKmers k).map (fun w => table w))

/-- `PrefixTable::to_dense` (`src/prefix_table.rs:55-70`): same dense vector
as `clone_dense` (the source drains the map with `remove` instead of `get`;
as each enumerated key is distinct, the removals return exactly the lookups
and the drained map is dropped). -/
def PrefixTable.to_dense (other : PrefixTable) : PrefixTable :=
  match other with
  | .Dense table => .Dense table
  | .Sparse k table => .Dense ((allKmers k).map (fun w => table w))

/-- Lookup in the association of the kmer enumeration with a dense vector,
modelling the map built by `to_sparse`'s `zip`.  The enumerated keys are
pairwise distinct, so first-match lookup agrees with the hash map the
source builds. -/
def zipLookup : List (List Nat) → List (Option Span) → List Nat → Option Span
  | [], _, _ => none
  | _, [], _ => none
  | w :: ws, v :: vs, key => if key = w then v else zipLookup ws vs key

/-- `PrefixTable::to_sparse` (`src/prefix_table.rs:89-110`); note the `k` it
stores and enumerates with comes from `PrefixTable::k`, i.e. from the
floating-point `dlog4` when the input is Dense. -/
def PrefixTable.to_sparse (dlog4 : Nat → Nat) (other : PrefixTable) : PrefixTable :=
  match other with
  | .Sparse k table => .Sparse k table
  | .Dense table =>
    .Sparse (dlog4 table.length) (zipLookup (allKmers (dlog4 table.length)) table)

/-- The logical on-disk encoding produced by `impl Serialize for
PrefixTable` (`src/prefix_table.rs:113-137`). -/
inductive SerializedForm where
  | SparseF (k : Nat) (table : List Nat → Option Span)
  | DenseF (table : List (Option Span))

/-- The encoding choice of `impl Serialize for PrefixTable`
(`src/prefix_table.rs:113-137`): a Sparse table with `k < 12` is first
converted with `clone_dense` and written in the Dense encoding; a Sparse
table with `k ≥ 12` is written in the Sparse encoding; a Dense table is
always written in the Dense encoding.  `serialize` takes `&self`, so the
in-memory value is untouched. -/
def PrefixTable.serializeForm (t : PrefixTable) : SerializedForm :=
  match t with
  | .Sparse k table =>
    if k < 12 then
      match PrefixTable.clone_dense (.Sparse k table) with
      | .Dense d => .DenseF d
      | .Sparse k' m => .SparseF k' m
    else .SparseF k table
  | .Dense table => .DenseF table

/-! ## The Index (`src/suffix_array.rs`) -/

/-- A parsed reference record (`src/record.rs`). -/
structure Record where
  header : List Nat
  sequence : List Nat

/-- The Index: reference text, suffix array, optional prefix table
(`src/suffix_array.rs:12-17`). -/
structure SuffixArray where
  sequence : List Nat
  suffix_array : List Nat
  prefix_table : Option PrefixTable

/-- `SuffixArray::from_record` (`src/suffix_array.rs:78-89`): append the
sentinel if absent, then delegate suffix-array construction to the external
`SuffixTable::new` (an out-of-scope collaborator per the spec), modelled as
the parameter `saBuilder`.  The function is total: it has no error path and
performs no size check before handing the sequence to the external
sorter. -/
def SuffixArray.from_record (saBuilder : List Nat → List Nat) (record : Record) :
    SuffixArray :=
  let s := if record.sequence.getLast? = some 36 then record.sequence
    else record.sequence ++ [36]
  { sequence := s, suffix_array := saBuilder s, prefix_table := none }

/-- The candidate prefix of the suffix starting at reference position
`elem`: `&self.sequence[elem..min(sa_len - 1, elem + k)]`
(`src/suffix_array.rs:39`) — the first `k` bytes, truncated before the
sentinel position. -/
def candidate (seq : List Nat) (saLen k elem : Nat) : List Nat :=
  (seq.take (min (saLen - 1) (elem + k))).drop elem

/-- The loop of `SuffixArray::build_prefix_table`
(`src/suffix_array.rs:31-65`), one step per suffix-array entry, carrying
the enumeration index, the candidate prefix of the open run, the open run's
start, and the table built so far; the trailing `if let` that closes the
final run is the `[]` case. -/
def buildGo (seq : List Nat) (saLen k : Nat) :
    Nat → Option (List Nat) → Nat → List Nat → (List Nat → Option Span) →
    (List Nat → Option Span)
  | _, last, start, [], tbl =>
    match last with
    | some prev =>
      if prev.length = k ∧ prev ≠ [36] then tableInsert tbl prev (start, saLen) else tbl
    | none => tbl
  | idx, last, start, elem :: rest, tbl =>
    let pfx := candidate seq saLen k elem
    match last with
    | none => buildGo seq saLen k (idx + 1) (some pfx) idx rest tbl
    | some prev =>
      if prev = pfx then buildGo seq saLen k (idx + 1) (some prev) start rest tbl
      else
        buildGo seq saLen k (idx + 1) (some pfx) idx rest
          (if prev.length = k ∧ prev ≠ [36] then tableInsert tbl prev (start, idx) else tbl)

/-- `SuffixArray::build_prefix_table` (`src/suffix_array.rs:31-65`). -/
def SuffixArray.build_prefix_table (x : SuffixArray) (k : Nat) : PrefixTable :=
  .Sparse k (buildGo x.sequence x.suffix_array.length k 0 none 0 x.suffix_array
    (fun _ => none))

/-- `SuffixArray::get_start_span` (`src/suffix_array.rs:91-102`). -/
def SuffixArray.get_start_span (dlog4 : Nat → Nat) (x : SuffixArray) (pfx : List Nat) :
    Option Span :=
  match x.prefix_table with
  | some table =>
    if pfx.length < table.k dlog4 then some (0, x.suffix_array.length)
    else table.get (pfx.take (table.k dlog4))
  | none => some (0, x.suffix_array.length)

/-- `SuffixArray::naive_search` (`src/suffix_array.rs:104-118`); named
`naiveSearch` because the module-level `naive_search` it delegates to keeps
the shared source name. -/
def SuffixArray.naiveSearch (dlog4 : Nat → Nat) (x : SuffixArray) (pfx : List Nat) :
    Option Span :=
  match x.get_start_span dlog4 pfx with
  | none => none
  | some span =>
    if ((x.suffix_array.take span.2).drop span.1).isEmpty then none
    else naive_search x.sequence pfx x.suffix_array span

/-- `SuffixArray::simple_accelerant_search` (`src/suffix_array.rs:120-134`). -/
def SuffixArray.simpleAccelerantSearch (dlog4 : Nat → Nat) (x : SuffixArray)
    (pfx : List Nat) : Option Span :=
  match x.get_start_span dlog4 pfx with
  | none => none
  | some span =>
    if ((x.suffix_array.take span.2).drop span.1).isEmpty then none
    else simple_accelerant_search x.sequence pfx x.suffix_array span

/-! ## Claim C5: starting-span computation of the public entry points -/

theorem slice_isEmpty_of_le (l : List Nat) (s e : Nat) (h : e ≤ s) :
    ((l.take e).drop s).isEmpty = true := by
  have hlen : ((l.take e).drop s).length = 0 := by
    rw [List.length_drop, List.length_take]
    omega
  cases hc : (l.take e).drop s with
  | nil => rfl
  | cons a as => rw [hc] at hlen; simp at hlen

/-- C5.  For every Index and every query: if a Prefix Table with parameter
`k` exists and `len(query) ≥ k`, the starting span is the table lookup of
`query[0..k]`, and an absent lookup makes the search return `None` without
bisecting; if `len(query) < k` or no table exists, the starting span is the
full suffix-array range `(0, len(suffix_array))`; and an empty starting
span makes the search return `None`.  Identically for both
`SuffixArray::naive_search` and `SuffixArray::simple_accelerant_search`
(stated for an arbitrary `dlog4`, so it holds whatever the floating-point
`k()` of a Dense table computes). -/
theorem index_start_span_spec :
    ∀ (dlog4 : Nat → Nat) (x : SuffixArray) (q : List Nat),
      (∀ t, x.prefix_table = some t → t.k dlog4 ≤ q.length →
        t.get (q.take (t.k dlog4)) = none →
        x.naiveSearch dlog4 q = none ∧ x.simpleAccelerantSearch dlog4 q = none) ∧
      (∀ t sp, x.prefix_table = some t → t.k dlog4 ≤ q.length →
        t.get (q.take (t.k dlog4)) = some sp →
        x.get_start_span dlog4 q = some sp ∧
        x.naiveSearch dlog4 q =
          (if ((x.suffix_array.take sp.2).drop sp.1).isEmpty then none
           else naive_search x.sequence q x.suffix_array sp) ∧
        x.simpleAccelerantSearch dlog4 q =
          (if ((x.suffix_array.take sp.2).drop sp.1).isEmpty then none
           else simple_accelerant_search x.sequence q x.suffix_array sp)) ∧
      (∀ t, x.prefix_table = some t → q.length < t.k dlog4 →
        x.get_start_span dlog4 q = some (0, x.suffix_array.length)) ∧
      (x.prefix_table = none →
        x.get_start_span dlog4 q = some (0, x.suffix_array.length)) ∧
      (x.get_start_span dlog4 q = some (0, x.suffix_array.length) →
        x.naiveSearch dlog4 q =
          (if ((x.suffix_array.take x.suffix_array.length).drop 0).isEmpty then none
           else naive_search x.sequence q x.suffix_array (0, x.suffix_array.length)) ∧
        x.simpleAccelerantSearch dlog4 q =
          (if ((x.suffix_array.take x.suffix_array.length).drop 0).isEmpty then none
           else simple_accelerant_search x.sequence q x.suffix_array
             (0, x.suffix_array.length))) ∧
      (∀ sp, x.get_start_span dlog4 q = some sp → sp.2 ≤ sp.1 →
        x.naiveSearch dlog4 q = none ∧ x.simpleAccelerantSearch dlog4 q = none) := by
  intro dlog4 x q
  refine ⟨?_, ?_, ?_, ?_, ?_, ?_⟩
  · intro t ht hk hget
    constructor
    · simp only [SuffixArray.naiveSearch, SuffixArray.get_start_span, ht,
        if_neg (Nat.not_lt.mpr hk), hget]
    · simp only [SuffixArray.simpleAccelerantSearch, SuffixArray.get_start_span, ht,
        if_neg (Nat.not_lt.mpr hk), hget]
  · intro t sp ht hk hget
    refine ⟨?_, ?_, ?_⟩
    · simp only [SuffixArray.get_start_span, ht, if_neg (Nat.not_lt.mpr hk), hget]
    · simp only [SuffixArray.naiveSearch, SuffixArray.get_start_span, ht,
        if_neg (Nat.not_lt.mpr hk), hget]
    · simp only [SuffixArray.simpleAccelerantSearch, SuffixArray.get_start_span, ht,
        if_neg (Nat.not_lt.mpr hk), hget]
  · intro t ht hlt
    simp only [SuffixArray.get_start_span, ht, if_pos hlt]
  · intro hnone
    simp only [SuffixArray.get_start_span, hnone]
  · intro h
    constructor
    · simp only [SuffixArray.naiveSearch, h]
    · simp only [SuffixArray.simpleAccelerantSearch, h]
  · intro sp h hle
    constructor
    · simp only [SuffixArray.naiveSearch, h,
        if_pos (slice_isEmpty_of_le x.suffix_array sp.1 sp.2 hle)]
    · simp only [SuffixArray.simpleAccelerantSearch, h,
        if_pos (slice_isEmpty_of_le x.suffix_array sp.1 sp.2 hle)]

/-- Witness for C5: an Index over `"AACCG$"` with a `k = 1` Sparse table,
query `"C"`, whose table lookup yields the span `(3, 5)`. -/
theorem index_start_span_spec_witness :
    (SuffixArray.mk [65, 65, 67, 67, 71, 36] [5, 0, 1, 2, 3, 4]
        (some (PrefixTable.Sparse 1 (fun key =>
          if key = [65] then some (1, 3)
          else if key = [67] then some (3, 5)
          else if key = [71] then some (5, 6) else none)))).naiveSearch
      (fun _ => 0) [67] =
      (if (([5, 0, 1, 2, 3, 4].take 5).drop (3 : Nat)).isEmpty then none
       else naive_search [65, 65, 67, 67, 71, 36] [67] [5, 0, 1, 2, 3, 4] (3, 5)) := by
  have h := ((index_start_span_spec (fun _ => 0)
    (SuffixArray.mk [65, 65, 67, 67, 71, 36] [5, 0, 1, 2, 3, 4]
      (some (PrefixTable.Sparse 1 (fun key =>
        if key = [65] then some (1, 3)
        else if key = [67] then some (3, 5)
        else if key = [71] then some (5, 6) else none)))) [67]).2.1
    (PrefixTable.Sparse 1 (fun key =>
      if key = [65] then some (1, 3)
      else if key = [67] then some (3, 5)
      else if key = [71] then some (5, 6) else none)) (3, 5) rfl (by decide) (by decide)).2.1
  exact h

/-! ## Claim C9: no size check before construction -/

/-- C9 evidence: `from_record` is a total function with no error path.  A
record whose sequence already exceeds the 32-bit index capacity is accepted
and construction proceeds (the sequence, sentinel included, is handed to
the external sorter): no `SizeLimitExceeded` error exists anywhere in the
repository. -/
theorem from_record_no_size_check (saBuilder : List Nat → List Nat) (r : Record)
    (h : 2 ^ 32 ≤ r.sequence.length) :
    2 ^ 32 ≤ (SuffixArray.from_record saBuilder r).sequence.length := by
  simp only [SuffixArray.from_record]
  split
  · exact h
  · rw [List.length_append]
    simp
    omega

/-- Witness for C9's evidence theorem at a `2^32`-byte record. -/
theorem from_record_no_size_check_witness :
    2 ^ 32 ≤ (SuffixArray.from_record (fun _ => [])
      ⟨[], List.replicate (2 ^ 32) 65⟩).sequence.length :=
  from_record_no_size_check (fun _ => []) ⟨[], List.replicate (2 ^ 32) 65⟩
    (by rw [List.length_replicate])

/-! ## Claim C8: the serialization policy -/

/-- The dense-index encoder agrees with `prefix_to_index` on ACGT keys:
value of the digits read most-significant first. -/
def encW : List Nat → Nat
  | [] => 0
  | b :: w => (nucleotide_to_int b).getD 0 * 4 ^ w.length + encW w

theorem foldl_radix (ds : List Nat) (a : Nat) :
    ds.foldl (fun acc d => acc * 4 + d) a
      = a * 4 ^ ds.length + ds.foldl (fun acc d => acc * 4 + d) 0 := by
  induction ds generalizing a with
  | nil => simp
  | cons d ds ih =>
    simp only [List.foldl_cons, List.length_cons]
    rw [ih (a * 4 + d), ih (0 * 4 + d)]
    ring

/-- All-ACGT byte strings. -/
def ACGTw (w : List Nat) : Prop := ∀ b ∈ w, ACGT b

instance (w : List Nat) : Decidable (ACGTw w) := by
  unfold ACGTw; infer_instance

theorem mapDigits_eq (w : List Nat) (hw : ACGTw w) :
    mapDigits w = some (w.map (fun b => (nucleotide_to_int b).getD 0)) := by
  induction w with
  | nil => rfl
  | cons b rest ih =>
    have hb : ACGT b := hw b (by simp)
    have hrest : ACGTw rest := fun x hx => hw x (by simp [hx])
    have hd : ∃ d, nucleotide_to_int b = some d := by
      rcases hb with h | h | h | h <;> subst h <;> simp [nucleotide_to_int]
    obtain ⟨d, hd1⟩ := hd
    simp only [mapDigits, hd1, ih hrest, List.map_cons, Option.getD_some]

theorem foldl_digits_eq_encW (w : List Nat) :
    (w.map (fun b => (nucleotide_to_int b).getD 0)).foldl (fun acc d => acc * 4 + d) 0
      = encW w := by
  induction w with
  | nil => rfl
  | cons b rest ih =>
    simp only [List.map_cons, List.foldl_cons]
    rw [foldl_radix]
    rw [ih]
    simp [encW, List.length_map]

theorem prefix_to_index_eq_encW (w : List Nat) (hw : ACGTw w) (hne : w ≠ []) :
    prefix_to_index w = some (encW w) := by
  have hlist : (w.map (fun b => (nucleotide_to_int b).getD 0)).isEmpty = false := by
    cases w with
    | nil => exact absurd rfl hne
    | cons b rest => rfl
  rw [prefix_to_index, mapDigits_eq w hw]
  simp only [hlist, Bool.false_eq_true, if_false]
  rw [foldl_digits_eq_encW]

theorem encW_lt (w : List Nat) (hw : ACGTw w) : encW w < 4 ^ w.length := by
  induction w with
  | nil => simp [encW]
  | cons b rest ih =>
    have hb : ACGT b := hw b (by simp)
    have hrest : ACGTw rest := fun x hx => hw x (by simp [hx])
    have hd : (nucleotide_to_int b).getD 0 < 4 := by
      rcases hb with h | h | h | h <;> subst h <;> simp [nucleotide_to_int]
    have h1 := ih hrest
    have h2 : 0 < 4 ^ rest.length := Nat.pos_pow_of_pos _ (by omega)
    simp only [encW, List.length_cons]
    calc (nucleotide_to_int b).getD 0 * 4 ^ rest.length + encW rest
        < (nucleotide_to_int b).getD 0 * 4 ^ rest.length + 4 ^ rest.length := by omega
      _ = ((nucleotide_to_int b).getD 0 + 1) * 4 ^ rest.length := by ring
      _ ≤ 4 * 4 ^ rest.length := Nat.mul_le_mul_right _ (by omega)
      _ = 4 ^ (rest.length + 1) := by rw [pow_succ]; ring

theorem tuples_length (k : Nat) : (tuples k).length = 4 ^ k := by
  induction k with
  | zero => rfl
  | succ n ih =>
    simp only [tuples, List.length_append, List.length_map, ih]
    rw [pow_succ]
    ring

theorem tuples_get (k : Nat) : ∀ w, w.length = k → ACGTw w →
    (tuples k).get? (encW w) = some w := by
  induction k with
  | zero =>
    intro w hlen _
    rw [List.length_eq_zero] at hlen
    subst hlen
    rfl
  | succ n ih =>
    intro w hlen hw
    cases w with
    | nil => simp at hlen
    | cons b rest =>
      have hb : ACGT b := hw b (by simp)
      have hrest : ACGTw rest := fun x hx => hw x (by simp [hx])
      have hrlen : rest.length = n := by simpa using hlen
      have hget := ih rest hrlen hrest
      have hlt : encW rest < 4 ^ n := by
        have := encW_lt rest hrest
        rwa [hrlen] at this
      have hlA : ((tuples n).map (65 :: ·)).length = 4 ^ n := by
        rw [List.length_map, tuples_length]
      have hlC : ((tuples n).map (67 :: ·)).length = 4 ^ n := by
        rw [List.length_map, tuples_length]
      have hlG : ((tuples n).map (71 :: ·)).length = 4 ^ n := by
        rw [List.length_map, tuples_length]
      have hl2 : (((tuples n).map (65 :: ·)) ++ ((tuples n).map (67 :: ·))).length
          = 2 * 4 ^ n := by
        rw [List.length_append, hlA, hlC]
        omega
      have hl3 : ((((tuples n).map (65 :: ·)) ++ ((tuples n).map (67 :: ·)))
          ++ ((tuples n).map (71 :: ·))).length = 3 * 4 ^ n := by
        rw [List.length_append, hl2, hlG]
        omega
      rcases hb with h | h | h | h <;> subst h
      · have hv : encW (65 :: rest) = encW rest := by
          simp [encW, nucleotide_to_int]
        rw [tuples, hv]
        rw [List.get?_append (by rw [hl3]; omega)]
        rw [List.get?_append (by rw [hl2]; omega)]
        rw [List.get?_append (by rw [hlA]; omega)]
        rw [List.get?_map, hget]
        rfl
      · have hv : encW (67 :: rest) = 4 ^ n + encW rest := by
          simp [encW, nucleotide_to_int, hrlen]
        rw [tuples, hv]
        rw [List.get?_append (by rw [hl3]; omega)]
        rw [List.get?_append (by rw [hl2]; omega)]
        rw [List.get?_append_right (by rw [hlA]; omega)]
        rw [show 4 ^ n + encW rest - ((tuples n).map (65 :: ·)).length = encW rest by
          rw [hlA]; omega]
        rw [List.get?_map, hget]
        rfl
      · have hv : encW (71 :: rest) = 2 * 4 ^ n + encW rest := by
          simp [encW, nucleotide_to_int, hrlen]
        rw [tuples, hv]
        rw [List.get?_append (by rw [hl3]; omega)]
        rw [List.get?_append_right (by rw [hl2]; omega)]
        rw [show 2 * 4 ^ n + encW rest
            - (((tuples n).map (65 :: ·)) ++ ((tuples n).map (67 :: ·))).length
            = encW rest by rw [hl2]; omega]
        rw [List.get?_map, hget]
        rfl
      · have hv : encW (84 :: rest) = 3 * 4 ^ n + encW rest := by
          simp [encW, nucleotide_to_int, hrlen]
        rw [tuples, hv]
        rw [List.get?_append_right (by rw [hl3]; omega)]
        rw [show 3 * 4 ^ n + encW rest
            - ((((tuples n).map (65 :: ·)) ++ ((tuples n).map (67 :: ·)))
              ++ ((tuples n).map (71 :: ·))).length
            = encW rest by rw [hl3]; omega]
        rw [List.get?_map, hget]
        rfl

/-- Dense materialization of a Sparse table preserves every entry: looking
up any length-`k` ACGT key in the dense clone gives the original map's
answer (for `k ≥ 1`; at `k = 0` the enumeration the source takes the
product over is empty). -/
theorem clone_dense_get (k : Nat) (m : List Nat → Option Span) (hk : 0 < k)
    (key : List Nat) (hlen : key.length = k) (hkey : ACGTw key) :
    (PrefixTable.clone_dense (.Sparse k m)).get key = PrefixTable.get (.Sparse k m) key := by
  have hne : key ≠ [] := by
    intro h
    subst h
    simp at hlen
    omega
  have hp2i := prefix_to_index_eq_encW key hkey hne
  have hak : allKmers k = tuples k := by
    rw [allKmers, if_neg (by omega)]
  simp only [PrefixTable.clone_dense, PrefixTable.get, hp2i, hak]
  rw [List.getD_eq_getElem?_getD, ← List.get?_eq_getElem?, List.get?_map,
    tuples_get k key hlen hkey]
  rfl

/-- The parameter `k` of a table in the sense of the data model: the stored
`k` for Sparse, the length exponent (`len = 4^k`) for Dense. -/
def hasParamK : PrefixTable → Nat → Prop
  | .Sparse k' _, k => k' = k
  | .Dense v, k => v.length = 4 ^ k

/-- C8 fails as frozen: serialization is chosen by the *variant first*.  A
Dense in-memory table with parameter `k = 12 ≥ 12` is serialized in the
Dense encoding, not the Sparse one as the claim's `k >= 12` rule demands. -/
theorem serialize_policy_counterexample :
    hasParamK (PrefixTable.Dense (List.replicate (4 ^ 12) none)) 12 ∧
    12 ≤ 12 ∧
    PrefixTable.serializeForm (PrefixTable.Dense (List.replicate (4 ^ 12) none))
      = SerializedForm.DenseF (List.replicate (4 ^ 12) none) ∧
    ∀ k' m, PrefixTable.serializeForm (PrefixTable.Dense (List.replicate (4 ^ 12) none))
      ≠ SerializedForm.SparseF k' m := by
  refine ⟨?_, le_rfl, rfl, ?_⟩
  · show (List.replicate (4 ^ 12) (none : Option Span)).length = 4 ^ 12
    rw [List.length_replicate]
  · intro k' m h
    exact SerializedForm.noConfusion h

/-- C8 (amended).  The stored encoding is a pure function of the variant
and `k`: a Sparse table with `k < 12` is serialized in the Dense encoding
(first converted to an equivalent Dense form which, for `k ≥ 1` and
length-`k` ACGT keys, preserves every entry); a Sparse table with `k ≥ 12`
is serialized in the Sparse encoding; a Dense table is always serialized in
the Dense encoding.  The selection affects only the stored encoding — the
in-memory value is untouched (`serialize` takes `&self`). -/
theorem serialize_policy (t : PrefixTable) :
    (∀ k m, t = .Sparse k m → k < 12 →
      t.serializeForm = .DenseF ((allKmers k).map (fun w => m w)) ∧
      (0 < k → ∀ key, key.length = k → ACGTw key →
        (PrefixTable.clone_dense t).get key = t.get key)) ∧
    (∀ k m, t = .Sparse k m → 12 ≤ k → t.serializeForm = .SparseF k m) ∧
    (∀ v, t = .Dense v → t.serializeForm = .DenseF v) := by
  refine ⟨?_, ?_, ?_⟩
  · intro k m ht hk
    subst ht
    constructor
    · simp only [PrefixTable.serializeForm, if_pos hk, PrefixTable.clone_dense]
    · intro hk0 key hlen hkey
      exact clone_dense_get k m hk0 key hlen hkey
  · intro k m ht hk
    subst ht
    simp only [PrefixTable.serializeForm, if_neg (by omega : ¬ k < 12)]
  · intro v ht
    subst ht
    rfl

/-- Witness for the amended C8 at a `k = 1` Sparse table and key `"C"`. -/
theorem serialize_policy_witness :
    (PrefixTable.Sparse 1 (fun key =>
        if key = [67] then some (3, 5) else none)).serializeForm
      = SerializedForm.DenseF ((allKmers 1).map (fun w =>
          if w = [67] then some (3, 5) else none)) ∧
    (PrefixTable.clone_dense (PrefixTable.Sparse 1 (fun key =>
        if key = [67] then some (3, 5) else none))).get [67]
      = PrefixTable.get (PrefixTable.Sparse 1 (fun key =>
          if key = [67] then some (3, 5) else none)) [67] := by
  have h := (serialize_policy (PrefixTable.Sparse 1 (fun key =>
    if key = [67] then some (3, 5) else none))).1 1 (fun key =>
    if key = [67] then some (3, 5) else none) rfl (by omega)
  exact ⟨h.1, h.2 (by omega) [67] rfl (by decide)⟩

/-! ## Claim C10: bounds safety of the suffix-array indexing -/

theorem get?_eq_some_getD (l : List Nat) (i : Nat) (h : i < l.length) :
    l.get? i = some (l.getD i 0) := by
  rw [List.get?_eq_getElem?, List.getElem?_eq_getElem h, List.getD_eq_getElem?_getD,
    List.getElem?_eq_getElem h]
  rfl

/-- `nbGo` with every panic of the source loop modelled by `none`: the
`u32` addition `left + right` overflowing (`src/search.rs:68`, a panic in a
debug build) and `suffix_array[center]` going out of bounds.  Fuel
exhaustion with the loop condition still true is also `none`, so a `some`
result certifies that the source loop terminates. -/
def nbGoChecked (seq q sa : List Nat) (f : Ordering → Bool) :
    Nat → Nat → Nat → Option Nat
  | 0, left, right => if left < right then none else some left
  | fuel + 1, left, right =>
    if left < right then
      if 4294967296 ≤ left + right then none
      else
        match sa.get? ((left + right) / 2) with
        | none => none
        | some elem =>
          if f (compare_bytes (seq.drop elem) q 0).ordering then
            nbGoChecked seq q sa f fuel ((left + right) / 2 + 1) right
          else
            nbGoChecked seq q sa f fuel left ((left + right) / 2)
    else some left

/-- `naive_bisect_by` with checked suffix-array accesses. -/
def naive_bisect_byChecked (seq q sa : List Nat) (span : Span) (f : Ordering → Bool) :
    Option Nat :=
  nbGoChecked seq q sa f (span.2 - span.1) span.1 span.2

/-- `saGo` with every suffix-array access checked. -/
def saGoChecked (seq q sa : List Nat) (f : Ordering → Bool) :
    Nat → Bound → Bound → Option (Bound × Bound)
  | 0, left, right => some (left, right)
  | fuel + 1, left, right =>
    if left.index < right.index then
      match sa.get? ((left.index + right.index) / 2) with
      | none => none
      | some elem =>
        let c := compare_bytes (seq.drop elem) q
          (min left.comparison.lcp right.comparison.lcp)
        if f c.ordering then
          saGoChecked seq q sa f fuel ⟨(left.index + right.index) / 2 + 1, c⟩ right
        else
          saGoChecked seq q sa f fuel left ⟨(left.index + right.index) / 2, c⟩
    else some (left, right)

/-- `naive_search` (`src/search.rs:170-222`) with every suffix-array access
checked, `none` modelling a panic: the indexings `suffix_array[span.0]`,
`suffix_array[span.1 - 1]` (whose `span.1 as usize - 1` underflows when
`span.1 = 0`), `suffix_array[center]` in the bisections and
`suffix_array[left]`. -/
def naive_searchChecked (seq q sa : List Nat) (span : Span) : Option (Option Span) :=
  match sa.get? span.1 with
  | none => none
  | some e0 =>
    if (compare_bytes (seq.drop e0) q 0).ordering = .gt then some none
    else if span.2 = 0 then none
    else
      match sa.get? (span.2 - 1) with
      | none => none
      | some e1 =>
        if (compare_bytes (seq.drop e1) q 0).ordering = .lt then some none
        else
          match naive_bisect_byChecked seq q sa span (fun x => x == Ordering.lt) with
          | none => none
          | some left =>
            match sa.get? left with
            | none => none
            | some eL =>
              if (compare_bytes (seq.drop eL) q 0).ordering ≠ .eq then some none
              else
                match naive_bisect_byChecked seq q sa (left, span.2)
                    (fun x => x != Ordering.gt) with
                | none => none
                | some right => some (some (left, right))

/-- `simple_accelerant_search` (`src/search.rs:112-168`) with every
suffix-array access checked. -/
def simple_accelerant_searchChecked (seq q sa : List Nat) (span : Span) :
    Option (Option Span) :=
  match sa.get? span.1 with
  | none => none
  | some e0 =>
    let lc := compare_bytes (seq.drop e0) q 0
    if lc.ordering = .gt then some none
    else if span.2 = 0 then none
    else
      match sa.get? (span.2 - 1) with
      | none => none
      | some e1 =>
        let rc := compare_bytes (seq.drop e1) q 0
        match saGoChecked seq q sa (fun x => x == Ordering.lt) (span.2 - span.1)
            ⟨span.1, lc⟩ ⟨span.2, rc⟩ with
        | none => none
        | some phaseA =>
          if phaseA.1.comparison.ordering ≠ .eq ∧ phaseA.2.comparison.ordering ≠ .eq then
            some none
          else
            match saGoChecked seq q sa (fun x => x != Ordering.gt)
                (span.2 - phaseA.1.index) phaseA.1 ⟨span.2, rc⟩ with
            | none => none
            | some phaseB => some (some (phaseA.1.index, phaseB.1.index))

theorem nbGoChecked_eq (seq q sa : List Nat) (f : Ordering → Bool) :
    ∀ fuel l r, r ≤ sa.length → r ≤ 2147483648 → r - l ≤ fuel →
    nbGoChecked seq q sa f fuel l r = some (nbGo seq q sa f fuel l r) := by
  intro fuel
  induction fuel with
  | zero =>
    intro l r _ _ hfu
    have hlr : ¬ l < r := by omega
    rw [nbGoChecked, nbGo, if_neg hlr]
  | succ n ih =>
    intro l r hr hlim hfu
    by_cases hlr : l < r
    · have hsum : ¬ 4294967296 ≤ l + r := by omega
      have hmod : (l + r) % 4294967296 = l + r := Nat.mod_eq_of_lt (by omega)
      have hc : (l + r) / 2 < sa.length := by omega
      rw [nbGoChecked, nbGo]
      simp only [if_pos hlr, if_neg hsum, get?_eq_some_getD sa _ hc, hmod]
      by_cases hf : f (compare_bytes (seq.drop (sa.getD ((l + r) / 2) 0)) q 0).ordering
      · rw [if_pos hf, if_pos hf, ih _ r hr hlim (by omega)]
      · rw [if_neg hf, if_neg hf, ih l _ (by omega) (by omega) (by omega)]
    · rw [nbGoChecked, nbGo]
      simp only [if_neg hlr]

theorem nbGo_range (seq q sa : List Nat) (f : Ordering → Bool) :
    ∀ fuel l r, l ≤ r → r ≤ 2147483648 →
    l ≤ nbGo seq q sa f fuel l r ∧ nbGo seq q sa f fuel l r ≤ r := by
  intro fuel
  induction fuel with
  | zero => intro l r h _; exact ⟨le_rfl, h⟩
  | succ n ih =>
    intro l r h hlim
    by_cases hlr : l < r
    · have hmod : (l + r) % 4294967296 = l + r := Nat.mod_eq_of_lt (by omega)
      rw [nbGo]
      simp only [if_pos hlr, hmod]
      by_cases hf : f (compare_bytes (seq.drop (sa.getD ((l + r) / 2) 0)) q 0).ordering
      · rw [if_pos hf]
        have := ih ((l + r) / 2 + 1) r (by omega) hlim
        omega
      · rw [if_neg hf]
        have := ih l ((l + r) / 2) (by omega) (by omega)
        omega
    · rw [nbGo]
      simp only [if_neg hlr]
      omega

theorem nbGo_eq_right (seq q sa : List Nat) (f : Ordering → Bool) :
    ∀ fuel l r, l < r → r ≤ 2147483648 → r - l ≤ fuel → nbGo seq q sa f fuel l r = r →
    f ((compare_bytes (seq.drop (sa.getD (r - 1) 0)) q 0).ordering) = true := by
  intro fuel
  induction fuel with
  | zero => intro l r h1 _ h2 _; omega
  | succ n ih =>
    intro l r h1 hlim h2 hres
    have hmod : (l + r) % 4294967296 = l + r := Nat.mod_eq_of_lt (by omega)
    rw [nbGo] at hres
    simp only [if_pos h1, hmod] at hres
    by_cases hf : f (compare_bytes (seq.drop (sa.getD ((l + r) / 2) 0)) q 0).ordering
    · rw [if_pos hf] at hres
      by_cases hcr : (l + r) / 2 + 1 < r
      · exact ih ((l + r) / 2 + 1) r hcr hlim (by omega) hres
      · have hceq : (l + r) / 2 = r - 1 := by omega
        rw [hceq] at hf
        simpa using hf
    · rw [if_neg hf] at hres
      have := nbGo_range seq q sa f n l ((l + r) / 2) (by omega) (by omega)
      omega

theorem saGoChecked_eq (seq q sa : List Nat) (f : Ordering → Bool) :
    ∀ fuel lb rb, rb.index ≤ sa.length →
    saGoChecked seq q sa f fuel lb rb = some (saGo seq q sa f fuel lb rb) := by
  intro fuel
  induction fuel with
  | zero => intro lb rb _; rfl
  | succ n ih =>
    intro lb rb hr
    by_cases hlr : lb.index < rb.index
    · have hc : (lb.index + rb.index) / 2 < sa.length := by omega
      rw [saGoChecked, saGo]
      simp only [if_pos hlr, get?_eq_some_getD sa _ hc]
      by_cases hf : f (compare_bytes (seq.drop (sa.getD ((lb.index + rb.index) / 2) 0)) q
          (min lb.comparison.lcp rb.comparison.lcp)).ordering
      · rw [if_pos hf, if_pos hf, ih _ rb hr]
      · rw [if_neg hf, if_neg hf, ih lb _ (by simp; omega)]
    · rw [saGoChecked, saGo]
      simp only [if_neg hlr]

theorem naive_searchChecked_eq (seq q sa : List Nat) (span : Span)
    (hspan : ValidSpan sa span) (hlim : span.2 ≤ 2147483648) :
    naive_searchChecked seq q sa span = some (naive_search seq q sa span) := by
  obtain ⟨s0, s1⟩ := span
  obtain ⟨h01, h1len⟩ := hspan
  simp only at h01 h1len hlim
  have h0 : s0 < sa.length := by omega
  have h1 : s1 - 1 < sa.length := by omega
  rw [naive_searchChecked, naive_search]
  simp only [get?_eq_some_getD sa s0 h0]
  by_cases hg : (compare_bytes (seq.drop (sa.getD s0 0)) q 0).ordering = .gt
  · rw [if_pos hg, if_pos hg]
  · rw [if_neg hg, if_neg hg, if_neg (by omega : ¬ s1 = 0)]
    simp only [get?_eq_some_getD sa (s1 - 1) h1]
    by_cases hl : (compare_bytes (seq.drop (sa.getD (s1 - 1) 0)) q 0).ordering = .lt
    · rw [if_pos hl, if_pos hl]
    · rw [if_neg hl, if_neg hl]
      simp only [naive_bisect_byChecked, naive_bisect_by]
      rw [nbGoChecked_eq seq q sa (fun x => x == Ordering.lt) (s1 - s0) s0 s1 h1len hlim
        (by omega)]
      simp only
      have hrange := nbGo_range seq q sa (fun x => x == Ordering.lt) (s1 - s0) s0 s1
        (by omega) hlim
      have hne : nbGo seq q sa (fun x => x == Ordering.lt) (s1 - s0) s0 s1 ≠ s1 := by
        intro hcon
        have := nbGo_eq_right seq q sa (fun x => x == Ordering.lt) (s1 - s0) s0 s1
          h01 hlim (by omega) hcon
        apply hl
        cases hcase : (compare_bytes (List.drop (sa.getD (s1 - 1) 0) seq) q 0).ordering
        · rfl
        · rw [hcase] at this; exact absurd this (by decide)
        · rw [hcase] at this; exact absurd this (by decide)
      have hleft : nbGo seq q sa (fun x => x == Ordering.lt) (s1 - s0) s0 s1
          < sa.length := by omega
      simp only [get?_eq_some_getD sa _ hleft]
      by_cases he : (compare_bytes (seq.drop (sa.getD
          (nbGo seq q sa (fun x => x == Ordering.lt) (s1 - s0) s0 s1) 0)) q 0).ordering
          ≠ .eq
      · rw [if_pos he, if_pos he]
      · rw [if_neg he, if_neg he]
        rw [nbGoChecked_eq seq q sa (fun x => x != Ordering.gt)
          (s1 - nbGo seq q sa (fun x => x == Ordering.lt) (s1 - s0) s0 s1)
          (nbGo seq q sa (fun x => x == Ordering.lt) (s1 - s0) s0 s1) s1 h1len hlim
          (by omega)]

theorem simple_accelerant_searchChecked_eq (seq q sa : List Nat) (span : Span)
    (hspan : ValidSpan sa span) :
    simple_accelerant_searchChecked seq q sa span
      = some (simple_accelerant_search seq q sa span) := by
  obtain ⟨s0, s1⟩ := span
  obtain ⟨h01, h1len⟩ := hspan
  simp only at h01 h1len
  have h0 : s0 < sa.length := by omega
  have h1 : s1 - 1 < sa.length := by omega
  rw [simple_accelerant_searchChecked, simple_accelerant_search]
  simp only [get?_eq_some_getD sa s0 h0, get?_eq_some_getD sa (s1 - 1) h1,
    simple_accelerant_bisect_by]
  by_cases hg : (compare_bytes (seq.drop (sa.getD s0 0)) q 0).ordering = .gt
  · rw [if_pos hg, if_pos hg]
  · rw [if_neg hg, if_neg hg, if_neg (by omega : ¬ s1 = 0)]
    rw [saGoChecked_eq seq q sa (fun x => x == Ordering.lt) (s1 - s0) _ _ h1len]
    simp only
    by_cases hcond : ((saGo seq q sa (fun x => x == Ordering.lt) (s1 - s0)
        ⟨s0, compare_bytes (seq.drop (sa.getD s0 0)) q 0⟩
        ⟨s1, compare_bytes (seq.drop (sa.getD (s1 - 1) 0)) q 0⟩).1.comparison.ordering
          ≠ .eq ∧
        (saGo seq q sa (fun x => x == Ordering.lt) (s1 - s0)
        ⟨s0, compare_bytes (seq.drop (sa.getD s0 0)) q 0⟩
        ⟨s1, compare_bytes (seq.drop (sa.getD (s1 - 1) 0)) q 0⟩).2.comparison.ordering
          ≠ .eq)
    · rw [if_pos hcond, if_pos hcond]
    · rw [if_neg hcond, if_neg hcond]
      rw [saGoChecked_eq seq q sa (fun x => x != Ordering.gt) _ _ _ (by simp; omega)]

/-! ## Claim C1: Naive versus Accelerated search -/

/-- C1 evidence.  The claimed equivalence — Naive and Accelerated search
return identical `Option Span` values on every valid input — is broken by
the Naive bisector's `u32` midpoint arithmetic (`src/search.rs:68`), not by
the bisection logic: (1) on every valid input whose span's right edge is at
most `2^31` — where the `u32` addition `left + right` cannot reach `2^32` —
`naive_search` and `simple_accelerant_search` do return identical values;
(2) from any bisection state with `left < right` and `left + right ≥ 2^32`
(reached on in-limit inputs: on a `2^32 - 2`-byte all-`T` reference queried
for `"TT"` over the full range `(0, 2^32 - 1)`, the left bisection ends at
2 and the right bisection starts from `(2, 2^32 - 1)`), the Naive
bisection's very next addition overflows `u32` — a panic in a debug build,
modelled by the checked bisection returning `none`; and (3) in a release
build the wrapped midpoint cycles: from `left = 1, right = 2^32 - 1`, when
the comparison at entry 0 keeps the predicate true the loop state is
unchanged by every iteration, so the Naive search never returns — while the
Accelerated search, which bisects over `usize` indices, is unaffected. -/
theorem naive_accelerant_equiv_u32_domain :
    (∀ (seq q sa : List Nat) (span : Span),
      ValidSeq seq → ValidQuery q → ValidSA seq sa → ValidSpan sa span →
      span.2 ≤ 2147483648 →
      naive_search seq q sa span = simple_accelerant_search seq q sa span) ∧
    (∀ (seq q sa : List Nat) (f : Ordering → Bool) (l r : Nat),
      l < r → 4294967296 ≤ l + r →
      naive_bisect_byChecked seq q sa (l, r) f = none) ∧
    (∀ (seq q sa : List Nat) (f : Ordering → Bool),
      f (compare_bytes (seq.drop (sa.getD 0 0)) q 0).ordering = true →
      ∀ fuel, nbGo seq q sa f fuel 1 4294967295 = 1) := by
  refine ⟨?_, ?_, ?_⟩
  · intro seq q sa span _hseq _hq hsa hspan hlim
    rw [naive_search_eq_spec seq q sa span hsa.2.2 hspan hlim,
      simple_accelerant_search_eq_spec seq q sa span hsa.2.2 hspan]
  · intro seq q sa f l r hlr hof
    show nbGoChecked seq q sa f (r - l) l r = none
    have hn : r - l = (r - l - 1) + 1 := by omega
    rw [hn, nbGoChecked, if_pos hlr, if_pos hof]
  · intro seq q sa f hf fuel
    induction fuel with
    | zero => rfl
    | succ n ih =>
      have h1 : (1 : Nat) < 4294967295 := by norm_num
      have hc : (1 + 4294967295) % 4294967296 / 2 = 0 := by norm_num
      rw [nbGo]
      simp only [if_pos h1, hc]
      rw [if_pos hf]
      exact ih

/-- Witness for the C1 evidence theorem: the safe-domain equivalence at
`"AACCG$"`, query `"C"`, full span; the overflow panic of the checked Naive
bisection at the state `(2, 2^32 - 1)`; and three stuck iterations of the
wrapped release-build loop from `(1, 2^32 - 1)`. -/
theorem naive_accelerant_equiv_u32_domain_witness :
    (naive_search [65, 65, 67, 67, 71, 36] [67] [5, 0, 1, 2, 3, 4] (0, 6)
      = simple_accelerant_search [65, 65, 67, 67, 71, 36] [67] [5, 0, 1, 2, 3, 4] (0, 6)) ∧
    naive_bisect_byChecked [] [] [] (2, 4294967295) (fun _ => false) = none ∧
    nbGo [] [] [] (fun _ => true) 3 1 4294967295 = 1 :=
  ⟨naive_accelerant_equiv_u32_domain.1 [65, 65, 67, 67, 71, 36] [67] [5, 0, 1, 2, 3, 4]
      (0, 6) (by decide) (by decide) (by decide) (by decide) (by decide),
   naive_accelerant_equiv_u32_domain.2.1 [] [] [] (fun _ => false) 2 4294967295
      (by decide) (by decide),
   naive_accelerant_equiv_u32_domain.2.2 [] [] [] (fun _ => true) rfl 3⟩

/-- Every span stored in the table is non-empty and within the suffix
array's bounds (the invariant `build_prefix_table` establishes). -/
def WfTable (len : Nat) : PrefixTable → Prop
  | .Sparse _ table => ∀ p s e, table p = some (s, e) → s < e ∧ e ≤ len
  | .Dense table => ∀ op ∈ table, ∀ s e, op = some (s, e) → s < e ∧ e ≤ len

/-- An Index whose prefix table (if any) is well formed. -/
def WfIndex (x : SuffixArray) : Prop :=
  ∀ t, x.prefix_table = some t → WfTable x.suffix_array.length t

/-- `SuffixArray::naive_search` with the panics modelled: the range slicing
`self.suffix_array[span.0..span.1]` panics on a malformed range (outer
check), and the delegated module-level search indexes the suffix array
(inner checked search). -/
def SuffixArray.naiveSearchChecked (dlog4 : Nat → Nat) (x : SuffixArray)
    (pfx : List Nat) : Option (Option Span) :=
  match x.get_start_span dlog4 pfx with
  | none => some none
  | some span =>
    if span.1 ≤ span.2 ∧ span.2 ≤ x.suffix_array.length then
      if ((x.suffix_array.take span.2).drop span.1).isEmpty then some none
      else naive_searchChecked x.sequence pfx x.suffix_array span
    else none

/-- `SuffixArray::simple_accelerant_search` with the panics modelled. -/
def SuffixArray.simpleAccelerantSearchChecked (dlog4 : Nat → Nat) (x : SuffixArray)
    (pfx : List Nat) : Option (Option Span) :=
  match x.get_start_span dlog4 pfx with
  | none => some none
  | some span =>
    if span.1 ≤ span.2 ∧ span.2 ≤ x.suffix_array.length then
      if ((x.suffix_array.take span.2).drop span.1).isEmpty then some none
      else simple_accelerant_searchChecked x.sequence pfx x.suffix_array span
    else none

theorem slice_nonempty_lt (l : List Nat) (s e : Nat)
    (h : ¬ ((l.take e).drop s).isEmpty = true) : s < e := by
  by_contra hcon
  exact h (slice_isEmpty_of_le l s e (by omega))

theorem get_start_span_wf (dlog4 : Nat → Nat) (x : SuffixArray) (q : List Nat)
    (hwf : WfIndex x) (sp : Span) (h : x.get_start_span dlog4 q = some sp) :
    sp.1 ≤ sp.2 ∧ sp.2 ≤ x.suffix_array.length := by
  rw [SuffixArray.get_start_span] at h
  cases ht : x.prefix_table with
  | none =>
    rw [ht] at h
    simp only [Option.some.injEq] at h
    subst h
    simp
  | some t =>
    rw [ht] at h
    simp only at h
    by_cases hk : q.length < t.k dlog4
    · rw [if_pos hk] at h
      simp only [Option.some.injEq] at h
      subst h
      simp
    · rw [if_neg hk] at h
      have hwt := hwf t ht
      cases t with
      | Sparse k m =>
        have := hwt (q.take k) sp.1 sp.2 (by rw [← h]; rfl)
        omega
      | Dense v =>
        rw [PrefixTable.get] at h
        cases hp : prefix_to_index (q.take (PrefixTable.k dlog4 (PrefixTable.Dense v))) with
        | none => rw [hp] at h; exact absurd h (by simp)
        | some idx =>
          rw [hp] at h
          simp only at h
          rw [List.getD_eq_getElem?_getD] at h
          cases hg : v[idx]? with
          | none => rw [hg] at h; exact absurd h (by simp)
          | some op =>
            rw [hg] at h
            simp only [Option.getD_some] at h
            have hmem : op ∈ v := by
              have := List.getElem?_mem hg
              exact this
            have := hwt op hmem sp.1 sp.2 h
            omega

/-- C10.  The module-level searches index `suffix_array[span.0]` and
`suffix_array[span.1 - 1]` (and `suffix_array[center]`, `suffix_array[left]`
inside the bisections), so a non-empty span with
`span.0 < span.1 ≤ len(suffix_array)` keeps every access in bounds: on such
spans the panic-checked searches return `some` of the source searches'
results — for the Naive search additionally under `span.1 ≤ 2^31`, inside
which its `u32` midpoint addition (whose overflow panic the checked model
also tracks) cannot fire.  The public Index entry points return `None`
whenever the starting span is empty before delegating, so no query against
an Index (with a well-formed prefix table, and for the Naive entry point a
suffix array of `u32`-midpoint-safe length) can reach an out-of-bounds
access: the checked entry points return `some` of the entry points'
results. -/
theorem search_bounds_safety :
    (∀ (seq q sa : List Nat) (span : Span), ValidSpan sa span →
      simple_accelerant_searchChecked seq q sa span
        = some (simple_accelerant_search seq q sa span) ∧
      (span.2 ≤ 2147483648 →
        naive_searchChecked seq q sa span = some (naive_search seq q sa span))) ∧
    (∀ (dlog4 : Nat → Nat) (x : SuffixArray) (q : List Nat), WfIndex x →
      x.simpleAccelerantSearchChecked dlog4 q
        = some (x.simpleAccelerantSearch dlog4 q) ∧
      (x.suffix_array.length ≤ 2147483648 →
        x.naiveSearchChecked dlog4 q = some (x.naiveSearch dlog4 q))) := by
  constructor
  · intro seq q sa span hspan
    exact ⟨simple_accelerant_searchChecked_eq seq q sa span hspan,
      fun hlim => naive_searchChecked_eq seq q sa span hspan hlim⟩
  · intro dlog4 x q hwf
    constructor
    · rw [SuffixArray.simpleAccelerantSearchChecked, SuffixArray.simpleAccelerantSearch]
      cases hsp : x.get_start_span dlog4 q with
      | none => rfl
      | some sp =>
        simp only
        have hb := get_start_span_wf dlog4 x q hwf sp hsp
        rw [if_pos hb]
        by_cases he : ((x.suffix_array.take sp.2).drop sp.1).isEmpty = true
        · rw [if_pos he, if_pos he]
        · rw [if_neg he, if_neg he]
          exact simple_accelerant_searchChecked_eq x.sequence q x.suffix_array sp
            ⟨slice_nonempty_lt _ _ _ he, hb.2⟩
    · intro hlen
      rw [SuffixArray.naiveSearchChecked, SuffixArray.naiveSearch]
      cases hsp : x.get_start_span dlog4 q with
      | none => rfl
      | some sp =>
        simp only
        have hb := get_start_span_wf dlog4 x q hwf sp hsp
        rw [if_pos hb]
        by_cases he : ((x.suffix_array.take sp.2).drop sp.1).isEmpty = true
        · rw [if_pos he, if_pos he]
        · rw [if_neg he, if_neg he]
          exact naive_searchChecked_eq x.sequence q x.suffix_array sp
            ⟨slice_nonempty_lt _ _ _ he, hb.2⟩ (by omega)

/-- Witness for C10 at the `"AACCG$"` instance and an Index with a `k = 1`
table. -/
theorem search_bounds_safety_witness :
    (naive_searchChecked [65, 65, 67, 67, 71, 36] [67] [5, 0, 1, 2, 3, 4] (0, 6)
      = some (naive_search [65, 65, 67, 67, 71, 36] [67] [5, 0, 1, 2, 3, 4] (0, 6))) ∧
    ((SuffixArray.mk [65, 65, 67, 67, 71, 36] [5, 0, 1, 2, 3, 4]
        (some (PrefixTable.Sparse 1 (fun key =>
          if key = [67] then some (3, 5) else none)))).naiveSearchChecked
      (fun _ => 0) [67]
      = some ((SuffixArray.mk [65, 65, 67, 67, 71, 36] [5, 0, 1, 2, 3, 4]
          (some (PrefixTable.Sparse 1 (fun key =>
            if key = [67] then some (3, 5) else none)))).naiveSearch
        (fun _ => 0) [67])) :=
  ⟨(search_bounds_safety.1 [65, 65, 67, 67, 71, 36] [67] [5, 0, 1, 2, 3, 4] (0, 6)
      (by decide)).2 (by decide),
   (search_bounds_safety.2 (fun _ => 0)
      (SuffixArray.mk [65, 65, 67, 67, 71, 36] [5, 0, 1, 2, 3, 4]
        (some (PrefixTable.Sparse 1 (fun key =>
          if key = [67] then some (3, 5) else none)))) [67]
      (by
        intro t ht
        simp only [Option.some.injEq] at ht
        subst ht
        intro p s e hp
        simp only at hp
        by_cases hc : p = [67]
        · rw [if_pos hc] at hp
          simp only [Option.some.injEq, Prod.mk.injEq] at hp
          obtain ⟨h1, h2⟩ := hp
          subst h1
          subst h2
          constructor
          · omega
          · simp
        · rw [if_neg hc] at hp
          exact absurd hp (by simp))).2 (by decide)⟩

/-! ## Claim C6: prefix-table build invariants -/

theorem candidate_eq (seq : List Nat) (n k elem : Nat) :
    candidate seq n k elem = ((seq.take (n - 1)).drop elem).take k := by
  rw [candidate, List.drop_take, List.drop_take, List.take_take]
  congr 1
  omega

theorem candidate_length (seq : List Nat) (n k elem : Nat) (hn : n = seq.length)
    (helem : elem < n) :
    (candidate seq n k elem).length = min k (n - 1 - elem) := by
  rw [candidate_eq, List.length_take, List.length_drop, List.length_take]
  omega

theorem candidate_bytes_ACGT (seq : List Nat) (n k elem : Nat) (hn : n = seq.length)
    (hseq : ValidSeq seq) : ∀ b ∈ candidate seq n k elem, ACGT b := by
  intro b hb
  rw [candidate_eq] at hb
  have h1 : b ∈ (seq.take (n - 1)).drop elem := List.mem_of_mem_take hb
  have h2 : b ∈ seq.take (n - 1) := List.mem_of_mem_drop h1
  have h3 : b ∈ seq.dropLast := by
    rw [List.dropLast_eq_take, ← hn]
    exact h2
  exact hseq.2.2 b h3

theorem seq_last_sentinel (seq : List Nat) (hseq : ValidSeq seq) :
    seq.getD (seq.length - 1) 0 = 36 := by
  have h := hseq.2.1
  rw [List.getLast?_eq_get? seq] at h
  have hpos : 0 < seq.length := by
    cases hs : seq with
    | nil => exact absurd hs hseq.1
    | cons a as => simp [hs]
  have hlt : seq.length - 1 < seq.length := by omega
  rw [get?_eq_some_getD seq _ hlt] at h
  simpa using h

/-- If a full-length candidate is a prefix of a suffix lexicographically
between two suffixes sharing it, the middle suffix's candidate is the same
list.  Together with the short-candidate case this makes candidate classes
contiguous along a sorted suffix array. -/
theorem cand_grouping (seq sa : List Nat) (k : Nat) (hseq : ValidSeq seq)
    (hsa : ValidSA seq sa) :
    ∀ i m j, i ≤ m → m ≤ j → j < sa.length →
    candidate seq sa.length k (sa.getD i 0) = candidate seq sa.length k (sa.getD j 0) →
    candidate seq sa.length k (sa.getD m 0) = candidate seq sa.length k (sa.getD i 0) := by
  intro i m j him hmj hj hij
  obtain ⟨hlen, hbound, hsor⟩ := hsa
  have hi : i < sa.length := by omega
  have hm : m < sa.length := by omega
  have hei : sa.getD i 0 < seq.length := hbound _ (List.get?_mem (get?_eq_some_getD sa i hi))
  have hem : sa.getD m 0 < seq.length := hbound _ (List.get?_mem (get?_eq_some_getD sa m hm))
  have hej : sa.getD j 0 < seq.length := hbound _ (List.get?_mem (get?_eq_some_getD sa j hj))
  have hlex1 : lexCmp (sfx seq sa i) (sfx seq sa m) ≠ .gt := hsor m hm i him
  have hlex2 : lexCmp (sfx seq sa m) (sfx seq sa j) ≠ .gt := hsor j hj m hmj
  have hcl_i := candidate_length seq sa.length k (sa.getD i 0) hlen (by omega)
  have hcl_m := candidate_length seq sa.length k (sa.getD m 0) hlen (by omega)
  have hcl_j := candidate_length seq sa.length k (sa.getD j 0) hlen (by omega)
  by_cases hfull : (candidate seq sa.length k (sa.getD i 0)).length = k
  · -- full-length candidates: prefix sandwich through the sorted suffixes
    have hki : k ≤ sa.length - 1 - sa.getD i 0 := by omega
    have hkj : k ≤ sa.length - 1 - sa.getD j 0 := by
      have : (candidate seq sa.length k (sa.getD j 0)).length = k := by
        rw [← hij]; exact hfull
      omega
    have hcand_i : candidate seq sa.length k (sa.getD i 0)
        = (seq.drop (sa.getD i 0)).take k := by
      rw [candidate_eq, List.drop_take, List.take_take]
      congr 1
      omega
    have hcand_j : candidate seq sa.length k (sa.getD j 0)
        = (seq.drop (sa.getD j 0)).take k := by
      rw [candidate_eq, List.drop_take, List.take_take]
      congr 1
      omega
    have hpi : candidate seq sa.length k (sa.getD i 0) <+: sfx seq sa i := by
      rw [hcand_i]
      exact List.take_prefix k _
    have hpj : candidate seq sa.length k (sa.getD i 0) <+: sfx seq sa j := by
      rw [hij, hcand_j]
      exact List.take_prefix k _
    have hpm : candidate seq sa.length k (sa.getD i 0) <+: sfx seq sa m :=
      prefix_sandwich _ _ _ _ hpi hpj hlex1 hlex2
    -- the prefix cannot cross the sentinel, so the middle candidate is full length
    have hkm : k ≤ sa.length - 1 - sa.getD m 0 := by
      by_contra hcon
      have hlt : sa.length - 1 - sa.getD m 0 < k := by omega
      have hsfxlen : (sfx seq sa m).length = seq.length - sa.getD m 0 := by
        rw [sfx, List.length_drop]
      have hplen : (candidate seq sa.length k (sa.getD i 0)).length = k := hfull
      have htpos : sa.getD m 0 + (sa.length - 1 - sa.getD m 0) = sa.length - 1 := by
        omega
      obtain ⟨tl, htl⟩ := hpm
      have hb36 : (candidate seq sa.length k (sa.getD i 0)).getD
          (sa.length - 1 - sa.getD m 0) 0 = 36 := by
        have : (candidate seq sa.length k (sa.getD i 0) ++ tl).getD
            (sa.length - 1 - sa.getD m 0) 0 = 36 := by
          rw [htl, sfx, getD_drop, htpos, hlen]
          exact seq_last_sentinel seq hseq
        rw [List.getD_eq_getElem?_getD, List.getElem?_append_left (by omega),
          ← List.getD_eq_getElem?_getD] at this
        exact this
      have hmem : (candidate seq sa.length k (sa.getD i 0)).getD
          (sa.length - 1 - sa.getD m 0) 0 ∈ candidate seq sa.length k (sa.getD i 0) :=
        List.get?_mem (get?_eq_some_getD _ _ (by omega))
      have := candidate_bytes_ACGT seq sa.length k (sa.getD i 0) hlen hseq _ hmem
      rw [hb36] at this
      rcases this with h | h | h | h <;> omega
    have hcand_m : candidate seq sa.length k (sa.getD m 0)
        = (seq.drop (sa.getD m 0)).take k := by
      rw [candidate_eq, List.drop_take, List.take_take]
      congr 1
      omega
    rw [hcand_m]
    rw [List.prefix_iff_eq_take] at hpm
    rw [sfx] at hpm
    rw [hfull] at hpm
    exact hpm.symm
  · -- short candidate: the two endpoint suffixes coincide
    have hshort : sa.length - 1 - sa.getD i 0 < k := by omega
    have hlen_j : (candidate seq sa.length k (sa.getD j 0)).length
        = (candidate seq sa.length k (sa.getD i 0)).length := by rw [hij]
    have hshort_j : sa.length - 1 - sa.getD j 0 < k := by omega
    have helem_eq : sa.getD i 0 = sa.getD j 0 := by
      have : min k (sa.length - 1 - sa.getD i 0) = sa.length - 1 - sa.getD i 0 := by
        omega
      have hj' : min k (sa.length - 1 - sa.getD j 0) = sa.length - 1 - sa.getD j 0 := by
        omega
      omega
    have hsame : sfx seq sa i = sfx seq sa j := by
      rw [sfx, sfx, helem_eq]
    have hmi : sfx seq sa m = sfx seq sa i := by
      apply lexCmp_antisymm
      · rw [hsame]
        exact hlex2
      · exact hlex1
    have helem_m : sa.getD m 0 = sa.getD i 0 := by
      have h1 : (sfx seq sa m).length = seq.length - sa.getD m 0 := by
        rw [sfx, List.length_drop]
      have h2 : (sfx seq sa i).length = seq.length - sa.getD i 0 := by
        rw [sfx, List.length_drop]
      have := congrArg List.length hmi
      omega
    rw [candidate_eq, candidate_eq, helem_m]

/-- The properties of a recorded run: a full-length non-sentinel key whose
span is a maximal block of suffix-array entries sharing that candidate. -/
def RunProps (seq sa : List Nat) (k : Nat) (p : List Nat) (s e : Nat) : Prop :=
  p.length = k ∧ p ≠ [36] ∧ s < e ∧ e ≤ sa.length ∧
  (∀ j, s ≤ j → j < e → candidate seq sa.length k (sa.getD j 0) = p) ∧
  (s = 0 ∨ candidate seq sa.length k (sa.getD (s - 1) 0) ≠ p) ∧
  (e = sa.length ∨ candidate seq sa.length k (sa.getD e 0) ≠ p)

theorem drop_cons_inv (sa : List Nat) (idx elem : Nat) (rest : List Nat)
    (h : sa.drop idx = elem :: rest) :
    sa.getD idx 0 = elem ∧ sa.drop (idx + 1) = rest ∧ idx < sa.length := by
  have hlen : sa.length - idx = rest.length + 1 := by
    have := List.length_drop idx sa
    rw [h] at this
    simp at this
    omega
  refine ⟨?_, ?_, by omega⟩
  · have h0 : (sa.drop idx).getD 0 0 = elem := by rw [h]; rfl
    rw [getD_drop] at h0
    simpa using h0
  · have ht : (sa.drop idx).tail = rest := by rw [h]; rfl
    rw [List.tail_drop] at ht
    exact ht

theorem buildGo_sound (seq sa : List Nat) (k : Nat) :
    ∀ (rest : List Nat) (idx start : Nat) (last : Option (List Nat))
      (tbl : List Nat → Option Span),
    sa.drop idx = rest →
    ((last = none ∧ idx = 0 ∧ ∀ p, tbl p = none) ∨
      (∃ prev, last = some prev ∧ start < idx ∧ idx ≤ sa.length ∧
        (∀ j, start ≤ j → j < idx → candidate seq sa.length k (sa.getD j 0) = prev) ∧
        (start = 0 ∨ candidate seq sa.length k (sa.getD (start - 1) 0) ≠ prev))) →
    (∀ p s e, tbl p = some (s, e) → RunProps seq sa k p s e ∧ e ≤ start) →
    ∀ p s e, buildGo seq sa.length k idx last start rest tbl p = some (s, e) →
      RunProps seq sa k p s e := by
  intro rest
  induction rest with
  | nil =>
    intro idx start last tbl hdrop hstate htbl p s e hfinal
    have hidx : sa.length ≤ idx := by
      have := List.length_drop idx sa
      rw [hdrop] at this
      simp at this
      omega
    rcases hstate with ⟨hl, _, hempty⟩ | ⟨prev, hl, hsi, hile, hrun, hmax⟩
    · subst hl
      simp only [buildGo] at hfinal
      rw [hempty p] at hfinal
      exact absurd hfinal (by simp)
    · subst hl
      simp only [buildGo] at hfinal
      by_cases hcond : prev.length = k ∧ prev ≠ [36]
      · rw [if_pos hcond] at hfinal
        rw [tableInsert] at hfinal
        by_cases hpp : p = prev
        · rw [if_pos hpp] at hfinal
          simp only [Option.some.injEq, Prod.mk.injEq] at hfinal
          obtain ⟨hs, he⟩ := hfinal
          subst hs
          subst he
          subst hpp
          refine ⟨hcond.1, hcond.2, by omega, le_rfl, ?_, ?_, Or.inl rfl⟩
          · intro j hj1 hj2
            exact hrun j hj1 (by omega)
          · exact hmax
        · rw [if_neg hpp] at hfinal
          exact (htbl p s e hfinal).1
      · rw [if_neg hcond] at hfinal
        exact (htbl p s e hfinal).1
  | cons elem rest' ih =>
    intro idx start last tbl hdrop hstate htbl p s e hfinal
    obtain ⟨hget, hrest', hlt⟩ := drop_cons_inv sa idx elem rest' hdrop
    rcases hstate with ⟨hl, hidx0, hempty⟩ | ⟨prev, hl, hsi, hile, hrun, hmax⟩
    · subst hl
      simp only [buildGo] at hfinal
      refine ih (idx + 1) idx (some (candidate seq sa.length k elem)) tbl hrest'
        (Or.inr ⟨candidate seq sa.length k elem, rfl, by omega, by omega, ?_, ?_⟩)
        (fun p' s' e' h' => absurd (hempty p' ▸ h') (by simp)) p s e hfinal
      · intro j hj1 hj2
        have hj : j = idx := by omega
        subst hj
        rw [hget]
      · left
        omega
    · subst hl
      simp only [buildGo] at hfinal
      by_cases hpp : prev = candidate seq sa.length k elem
      · rw [if_pos hpp] at hfinal
        refine ih (idx + 1) start (some prev) tbl hrest'
          (Or.inr ⟨prev, rfl, by omega, by omega, ?_, hmax⟩) htbl p s e hfinal
        intro j hj1 hj2
        by_cases hji : j < idx
        · exact hrun j hj1 hji
        · have : j = idx := by omega
          subst this
          rw [hget, hpp]
      · rw [if_neg hpp] at hfinal
        refine ih (idx + 1) idx (some (candidate seq sa.length k elem)) _ hrest'
          (Or.inr ⟨candidate seq sa.length k elem, rfl, by omega, by omega, ?_, ?_⟩)
          ?_ p s e hfinal
        · intro j hj1 hj2
          have hj : j = idx := by omega
          subst hj
          rw [hget]
        · right
          have : candidate seq sa.length k (sa.getD (idx - 1) 0) = prev :=
            hrun (idx - 1) (by omega) (by omega)
          rw [this]
          intro hcon
          exact hpp hcon
        · intro p' s' e' h'
          by_cases hcond : prev.length = k ∧ prev ≠ [36]
          · rw [if_pos hcond, tableInsert] at h'
            by_cases hpp' : p' = prev
            · rw [if_pos hpp'] at h'
              simp only [Option.some.injEq, Prod.mk.injEq] at h'
              obtain ⟨hs, he⟩ := h'
              subst hs
              subst he
              subst hpp'
              refine ⟨⟨hcond.1, hcond.2, by omega, by omega, ?_, hmax, ?_⟩, le_rfl⟩
              · intro j hj1 hj2
                exact hrun j hj1 hj2
              · right
                rw [hget]
                intro hcon
                exact hpp hcon.symm
            · rw [if_neg hpp'] at h'
              have := htbl p' s' e' h'
              exact ⟨this.1, by omega⟩
          · rw [if_neg hcond] at h'
            have := htbl p' s' e' h'
            exact ⟨this.1, by omega⟩

theorem run_exact (seq sa : List Nat) (k : Nat) (hseq : ValidSeq seq)
    (hsa : ValidSA seq sa) (p : List Nat) (s e : Nat)
    (hrp : RunProps seq sa k p s e) :
    ∀ i, i < sa.length →
      (candidate seq sa.length k (sa.getD i 0) = p ↔ (s ≤ i ∧ i < e)) := by
  obtain ⟨hplen, hpne, hse, helen, hrun, hlmax, hrmax⟩ := hrp
  intro i hi
  constructor
  · intro hcand
    by_contra hcon
    rcases Nat.lt_or_ge i s with his | his
    · -- i strictly left of the run: the candidate class would cross s - 1
      have hcs : candidate seq sa.length k (sa.getD s 0) = p :=
        hrun s le_rfl hse
      have hgr := cand_grouping seq sa k hseq hsa i (s - 1) s (by omega) (by omega)
        (by omega) (by rw [hcand, hcs])
      rw [hcand] at hgr
      rcases hlmax with h0 | hne
      · omega
      · exact hne hgr
    · have hie : e ≤ i := by omega
      have hcs : candidate seq sa.length k (sa.getD s 0) = p :=
        hrun s le_rfl hse
      have hgr := cand_grouping seq sa k hseq hsa s e i (by omega) hie hi
        (by rw [hcand, hcs])
      rw [hcs] at hgr
      rcases hrmax with h0 | hne
      · omega
      · exact hne hgr
  · intro ⟨h1, h2⟩
    exact hrun i h1 h2

/-- C6.  For every Index (sentinel-terminated ACGT sequence with a valid
suffix array) and every `k`, the table built by `build_prefix_table(k)`
satisfies: every key is a string of length exactly `k` that is not the
sentinel alone; each key's span covers exactly the maximal contiguous run
of suffix-array entries whose candidate prefix (the first `k` bytes,
truncated before the sentinel) equals that key; and suffixes whose
candidate prefix is shorter than `k` appear under no key. -/
theorem build_prefix_table_spec (x : SuffixArray) (k : Nat)
    (hseq : ValidSeq x.sequence) (hsa : ValidSA x.sequence x.suffix_array) :
    (∀ p s e, (x.build_prefix_table k).get p = some (s, e) →
      p.length = k ∧ p ≠ [36] ∧ s < e ∧ e ≤ x.suffix_array.length ∧
      (∀ i, i < x.suffix_array.length →
        (candidate x.sequence x.suffix_array.length k (x.suffix_array.getD i 0) = p
          ↔ (s ≤ i ∧ i < e)))) ∧
    (∀ i, i < x.suffix_array.length →
      (candidate x.sequence x.suffix_array.length k
        (x.suffix_array.getD i 0)).length < k →
      ∀ p s e, (x.build_prefix_table k).get p = some (s, e) → ¬ (s ≤ i ∧ i < e)) := by
  have hsound : ∀ p s e,
      (x.build_prefix_table k).get p = some (s, e) →
      RunProps x.sequence x.suffix_array k p s e := by
    intro p s e h
    exact buildGo_sound x.sequence x.suffix_array k x.suffix_array 0 0 none
      (fun _ => none) (by simp) (Or.inl ⟨rfl, rfl, fun _ => rfl⟩)
      (fun p' s' e' h' => absurd h' (by simp)) p s e h
  constructor
  · intro p s e h
    have hrp := hsound p s e h
    obtain ⟨hplen, hpne, hse, helen, _, _, _⟩ := hrp
    exact ⟨hplen, hpne, hse, helen,
      run_exact x.sequence x.suffix_array k hseq hsa p s e (hsound p s e h)⟩
  · intro i hi hshort p s e h hin
    have hrp := hsound p s e h
    have hcand := hrp.2.2.2.2.1 i hin.1 hin.2
    have hplen := hrp.1
    rw [hcand] at hshort
    omega

/-- Witness for C6: over `"AACCG$"` with `k = 1`, the built table maps
`"C"` to the run `(3, 5)`. -/
theorem build_prefix_table_spec_witness :
    ((SuffixArray.mk [65, 65, 67, 67, 71, 36] [5, 0, 1, 2, 3, 4]
        none).build_prefix_table 1).get [67] = some (3, 5) ∧
    ([67] : List Nat).length = 1 ∧
    (candidate [65, 65, 67, 67, 71, 36] 6 1 ([5, 0, 1, 2, 3, 4].getD 3 0) = [67]
      ↔ (3 ≤ 3 ∧ 3 < 5)) := by
  have h := (build_prefix_table_spec
    (SuffixArray.mk [65, 65, 67, 67, 71, 36] [5, 0, 1, 2, 3, 4] none) 1
    (by decide) (by decide)).1 [67] 3 5 (by decide)
  exact ⟨by decide, h.1, h.2.2.2.2 3 (by decide)⟩
